import Mathlib

/-!
Verification of the dataset-preparation pipeline in `src/dataset.py`
(PBC blood-cell image classification).

The Python module defines:
  * module constant `class_names` (the allow-list catalog),
  * `FilteredDataset` — filters an `ImageFolder` corpus down to `class_names`
    and remaps the labels to positions in `class_names`,
  * `TransformSubset` — wraps a `torch.utils.data.Subset`, applying a
    transform to the image component only,
  * `create_dataloaders` — performs a two-stage stratified split via
    scikit-learn's `train_test_split` (seed 42), computes inverse-frequency
    sample weights for the training split, and builds a
    `WeightedRandomSampler` plus three `DataLoader`s.

The shallow embedding below models images by their storage paths (decoding
is an external collaborator), real numbers as exact rationals, Python's
raised exceptions as `Except`/`Option` error results, and numpy's seeded
`RandomState` as an explicitly passed family of permutation streams.
-/

namespace PBC

/-- Images are identified by their storage location; decoding an image is
done by the external corpus-loader collaborator and is modelled as the
identity on the path. -/
abbrev Image := String

/-- Model of a `torchvision.datasets.ImageFolder`: an ordered class-name
list and an ordered sample list of (path, class-index) pairs.  `ImageFolder`
guarantees every sample's class index is in range of `classes`. -/
structure ImageFolder where
  classes : List String
  samples : List (Image × Nat)
  deriving Repr, DecidableEq

/-- The sample list is consistent with the class list: every stored class
index points into `classes` (an `ImageFolder` invariant). -/
def ImageFolder.Wf (ds : ImageFolder) : Prop :=
  ∀ s ∈ ds.samples, s.2 < ds.classes.length

instance (ds : ImageFolder) : Decidable ds.Wf := by
  unfold ImageFolder.Wf; infer_instance

/-- Equality of error results is decidable when both payloads have
decidable equality (used to evaluate the splitter on concrete corpora). -/
instance exceptDecEq {ε α : Type} [DecidableEq ε] [DecidableEq α] :
    DecidableEq (Except ε α)
  | .error a, .error b =>
    if h : a = b then .isTrue (by rw [h])
    else .isFalse (fun hh => h (Except.error.inj hh))
  | .error _, .ok _ => .isFalse (fun hh => Except.noConfusion hh)
  | .ok _, .error _ => .isFalse (fun hh => Except.noConfusion hh)
  | .ok a, .ok b =>
    if h : a = b then .isTrue (by rw [h])
    else .isFalse (fun hh => h (Except.ok.inj hh))

/-- Python list indexing `l[i]` for an `int` index: a negative index is
offset by the length first; an index that is still out of range raises
`IndexError`, modelled by `none`. -/
def pyGet (l : List α) (i : Int) : Option α :=
  let j : Int := if i < 0 then i + l.length else i
  if h : 0 ≤ j ∧ j < l.length then
    some (l.get ⟨j.toNat, by
      have := h.2
      omega⟩)
  else
    none

/-- The module constant `class_names` from `dataset.py`. -/
def class_names : List String :=
  ["basophil", "eosinophil", "erythroblast", "ig", "lymphocyte", "monocyte",
   "neutrophil", "platelet"]

/-- The dict comprehension `{cls: idx for idx, cls in enumerate(class_names)}`,
kept as the association list in insertion order. -/
def class_to_idx (names : List String) : List (String × Nat) :=
  names.enum.map (fun p => (p.2, p.1))

/-- Python `dict` lookup on the association list built by `class_to_idx`:
for a duplicated key the most recent (last) insertion wins, hence the
reversed search.  A missing key would raise `KeyError`; in `dataset.py` the
lookup is guarded by `class_name in class_names`, so a default of 0 is never
observable. -/
def dictGetD (d : List (String × Nat)) (k : String) : Nat :=
  (d.reverse.lookup k).getD 0

/-- State built by `FilteredDataset.__init__`: the wrapped dataset, the kept
original positions, and the remapped labels. -/
structure FilteredDataset where
  dataset : ImageFolder
  filtered_indices : List Nat
  targets : List Nat
  deriving Repr

/-- The filtering loop of `FilteredDataset.__init__`: for each sample (at
running position `idx`) whose class name is in `names`, append `idx` to
`filtered_indices` and the remapped label to `targets`. -/
def filterLoop (classes : List String) (names : List String) :
    Nat → List (Image × Nat) → List Nat × List Nat
  | _, [] => ([], [])
  | idx, s :: rest =>
    let r := filterLoop classes names (idx + 1) rest
    let class_name := classes.getD s.2 ""
    if names.contains class_name then
      (idx :: r.1, dictGetD (class_to_idx names) class_name :: r.2)
    else
      r

/-- `FilteredDataset.__init__(dataset, class_names)`. -/
def FilteredDataset.init (dataset : ImageFolder) (names : List String) :
    FilteredDataset :=
  let r := filterLoop dataset.classes names 0 dataset.samples
  ⟨dataset, r.1, r.2⟩

/-- `FilteredDataset.__len__`. -/
def FilteredDataset.length (fd : FilteredDataset) : Nat :=
  fd.filtered_indices.length

/-- `ImageFolder.__getitem__(index)`: reads `samples[index]`, loads the
image from its path (external loader, modelled as the identity) and returns
it with the raw label. -/
def ImageFolder.getItem (ds : ImageFolder) (i : Int) : Option (Image × Nat) :=
  pyGet ds.samples i

/-- `FilteredDataset.__getitem__(idx)`: evaluation order follows the source
(`filtered_indices[idx]`, then `dataset[original_idx]`, then
`targets[idx]`); any out-of-range list access raises. -/
def FilteredDataset.getItem (fd : FilteredDataset) (idx : Int) :
    Option (Image × Nat) := do
  let original_idx ← pyGet fd.filtered_indices idx
  let p ← fd.dataset.getItem original_idx
  let label ← pyGet fd.targets idx
  pure (p.1, label)

/-- `torch.utils.data.Subset(dataset, indices)` over a `FilteredDataset`. -/
structure Subset where
  dataset : FilteredDataset
  indices : List Nat
  deriving Repr

/-- `Subset.__len__` is `len(self.indices)`. -/
def Subset.length (s : Subset) : Nat := s.indices.length

/-- `Subset.__getitem__(idx)` is `self.dataset[self.indices[idx]]`. -/
def Subset.getItem (s : Subset) (idx : Int) : Option (Image × Nat) := do
  let j ← pyGet s.indices idx
  s.dataset.getItem j

/-- `TransformSubset(subset, transform)`. -/
structure TransformSubset where
  subset : Subset
  transform : Option (Image → Image)

/-- `TransformSubset.__len__` is `len(self.subset)`. -/
def TransformSubset.length (t : TransformSubset) : Nat := t.subset.length

/-- `TransformSubset.__getitem__(idx)`: reads the (image, label) pair from
the wrapped subset and applies the transform, when present, to the image
component only. -/
def TransformSubset.getItem (t : TransformSubset) (idx : Int) :
    Option (Image × Nat) :=
  (t.subset.getItem idx).map (fun p =>
    match t.transform with
    | some f => (f p.1, p.2)
    | none => p)

/-! ### The stratified splitter

`create_dataloaders` delegates splitting to scikit-learn's
`train_test_split(..., stratify=y, random_state=42)`, which runs
`StratifiedShuffleSplit`.  The definitions below embed that collaborator's
algorithm: per-class draw counts are allocated by `_approximate_mode`
(floor the proportional share, then hand the leftover draws to the classes
with the largest fractional remainders), the members drawn from each class
are chosen by a seeded permutation, and the two output index lists are
shuffled once more at the end.  numpy's seeded `RandomState` is modelled as
an explicitly passed stream `rng : Nat → Nat → List Nat` (call number,
size ↦ permutation of `range size`); `_approximate_mode`'s random
tie-break among classes with equal remainders is modelled by stable
position order. -/

/-- Sorted distinct values of `y` (numpy's `np.unique`). -/
def classesOf (y : List Nat) : List Nat :=
  (List.range (y.foldr max 0 + 1)).filter (fun c => y.contains c)

/-- The positions of `y` holding class `c`, in increasing position order
(the per-class groups of the stable `argsort` in `StratifiedShuffleSplit`). -/
def classIndices (y : List Nat) (c : Nat) : List Nat :=
  (List.range y.length).filter (fun i => y.getD i 0 == c)

/-! scikit-learn's `_approximate_mode(class_counts, n_draws, rng)`
allocates `n_draws` draws among the classes proportionally to
`class_counts`: it floors each share `class_counts[i] * n_draws / total`
and then grants one extra draw per class, in order of decreasing
fractional remainder, until the floored total reaches `n_draws`.  The
float arithmetic of the source is idealised as exact arithmetic: over the
common denominator `total`, the floor of the `i`-th share is the
natural-number quotient and its fractional remainder is ordered by the
residue `class_counts[i] * n_draws % total`.  Each stage of the
computation is a named definition below; `approximate_mode` assembles
them. -/

/-- The floored proportional shares. -/
def am_floored (class_counts : List Nat) (n_draws : Nat) : List Nat :=
  class_counts.map (fun c => c * n_draws / class_counts.sum)

/-- The number of draws still to hand out after flooring
(`need_to_add = n_draws - floored.sum`). -/
def am_need (class_counts : List Nat) (n_draws : Nat) : Nat :=
  n_draws - (am_floored class_counts n_draws).sum

/-- The fractional remainders of the proportional shares, as residues over
the common denominator `class_counts.sum`. -/
def am_remainder (class_counts : List Nat) (n_draws : Nat) : List Nat :=
  class_counts.map (fun c => c * n_draws % class_counts.sum)

/-- The class positions sorted by decreasing remainder (stably, which
models `rng.choice`'s tie-break among equal remainders by position order). -/
def am_order (class_counts : List Nat) (n_draws : Nat) : List Nat :=
  List.insertionSort
    (fun i j => (am_remainder class_counts n_draws).getD j 0 ≤
      (am_remainder class_counts n_draws).getD i 0)
    (List.range class_counts.length)

/-- The classes granted one extra draw: the `need_to_add` positions of
largest remainder. -/
def am_chosen (class_counts : List Nat) (n_draws : Nat) : List Nat :=
  (am_order class_counts n_draws).take (am_need class_counts n_draws)

def approximate_mode (class_counts : List Nat) (n_draws : Nat) : List Nat :=
  (List.range class_counts.length).map
    (fun i => (am_floored class_counts n_draws).getD i 0 +
      if i ∈ am_chosen class_counts n_draws then 1 else 0)

/-- Reorder `l` by a permutation given as a list of positions
(`rng.permutation` applied to an index list). -/
def applyPerm (perm : List Nat) (l : List Nat) : List Nat :=
  perm.map (fun p => l.getD p 0)

/-- `n_test = ceil(test_size * n_samples)` from `_validate_shuffle_split`,
computed as the integer ceiling division
`⌈test_size.num * n / test_size.den⌉`. -/
def n_test_of (test_size : ℚ) (n : Nat) : Nat :=
  ((test_size.num * n + test_size.den - 1).ediv test_size.den).toNat

/-- `n_train = n - n_test` (no explicit `train_size` is ever passed). -/
def n_train_of (test_size : ℚ) (n : Nat) : Nat := n - n_test_of test_size n

/-- Per-class member counts, in the sorted order of `classesOf`
(numpy's `bincount` of the inverse of `unique`). -/
def classCounts (y : List Nat) : List Nat :=
  (classesOf y).map (fun c => y.count c)

/-- The per-class number of training draws: `_approximate_mode` applied to
the class counts and `n_train`. -/
def n_i_of (y : List Nat) (test_size : ℚ) : List Nat :=
  approximate_mode (classCounts y) (n_train_of test_size y.length)

/-- The per-class number of test draws: `_approximate_mode` applied to the
counts remaining after the training draws and `n_test`. -/
def t_i_of (y : List Nat) (test_size : ℚ) : List Nat :=
  approximate_mode ((classCounts y).zipWith (· - ·) (n_i_of y test_size))
    (n_test_of test_size y.length)

/-- The members of the `k`-th class, reordered by the seeded permutation
drawn for that class (`rng.permutation(class_counts[i])` applied to the
class's position list). -/
def class_perm (y : List Nat) (rng : Nat → Nat → List Nat) (k : Nat) :
    List Nat :=
  applyPerm (rng k (classIndices y ((classesOf y).getD k 0)).length)
    (classIndices y ((classesOf y).getD k 0))

/-- The training draw from the `k`-th class: the first `n_i[k]` members of
the permuted class. -/
def trainPart (y : List Nat) (test_size : ℚ) (rng : Nat → Nat → List Nat)
    (k : Nat) : List Nat :=
  (class_perm y rng k).take ((n_i_of y test_size).getD k 0)

/-- The test draw from the `k`-th class: the next `t_i[k]` members of the
permuted class. -/
def testPart (y : List Nat) (test_size : ℚ) (rng : Nat → Nat → List Nat)
    (k : Nat) : List Nat :=
  ((class_perm y rng k).drop ((n_i_of y test_size).getD k 0)).take
    ((t_i_of y test_size).getD k 0)

/-- All training positions: the per-class training draws concatenated and
then shuffled once by the stream (`rng.permutation(train)`). -/
def split_train_positions (y : List Nat) (test_size : ℚ)
    (rng : Nat → Nat → List Nat) : List Nat :=
  applyPerm
    (rng (classesOf y).length
      (((List.range (classesOf y).length).map
        (trainPart y test_size rng)).flatten).length)
    (((List.range (classesOf y).length).map (trainPart y test_size rng)).flatten)

/-- All test positions: the per-class test draws concatenated and then
shuffled once by the stream (`rng.permutation(test)`). -/
def split_test_positions (y : List Nat) (test_size : ℚ)
    (rng : Nat → Nat → List Nat) : List Nat :=
  applyPerm
    (rng ((classesOf y).length + 1)
      (((List.range (classesOf y).length).map
        (testPart y test_size rng)).flatten).length)
    (((List.range (classesOf y).length).map (testPart y test_size rng)).flatten)

/-- The fraction `0.2` (`test_size` of the first split), given as an
explicit reduced fraction so that its numerator and denominator are
directly computable. -/
def one_fifth : ℚ := ⟨1, 5, by decide, by decide⟩

/-- The fraction `0.5` (`test_size` of the second split). -/
def one_half : ℚ := ⟨1, 2, by decide, by decide⟩

/-- The message of the `ValueError` scikit-learn raises from
`StratifiedShuffleSplit` when some class has fewer than two members.  It
states the minimum count but never names the offending class. -/
def least_populated_msg : String :=
  "The least populated class in y has only 1 member, which is too few. The minimum number of groups for any class cannot be less than 2."

/-- scikit-learn's `train_test_split(X, test_size, stratify=y,
random_state)` with `X` a list of sample indices: validates the request
(consistent lengths, non-empty train side, every class with at least two
members, at least one train and one test slot per class), allocates the
per-class train draw counts with `approximate_mode`, fills the test side
with the per-class remainder, picks the drawn members of each class by a
seeded permutation, and returns the two shuffled halves of `X`.  Raised
`ValueError`s are modelled as `Except.error` holding the message. -/
def train_test_split (X y : List Nat) (test_size : ℚ)
    (rng : Nat → Nat → List Nat) : Except String (List Nat × List Nat) :=
  if X.length ≠ y.length then
    .error "Found input variables with inconsistent numbers of samples"
  else if n_train_of test_size X.length = 0 then
    .error "With n_samples, test_size and train_size, the resulting train set will be empty."
  else if (classCounts y).any (fun c => c < 2) then
    .error least_populated_msg
  else if n_train_of test_size X.length < (classesOf y).length then
    .error "The train_size should be greater or equal to the number of classes"
  else if n_test_of test_size X.length < (classesOf y).length then
    .error "The test_size should be greater or equal to the number of classes"
  else
    .ok ((split_train_positions y test_size rng).map (fun i => X.getD i 0),
         (split_test_positions y test_size rng).map (fun i => X.getD i 0))

/-! ### Sample weights, sampler, loaders, and the assembler -/

/-- The training-weight computation in `create_dataloaders`: numpy's
`np.unique(train_targets, return_counts=True)` plus the dict
`{cls: 1.0 / count}` give each training sample the inverse of its class's
frequency among `train_targets` (floating-point reals idealised as ℚ). -/
def sample_weights (train_targets : List Nat) : List ℚ :=
  train_targets.map (fun t => 1 / (train_targets.count t : ℚ))

/-- Configuration of a `torch.utils.data.WeightedRandomSampler`: it draws
`num_samples` positions per pass, with replacement when `replacement` is
set, using `weights` as unnormalised selection probabilities. -/
structure WeightedRandomSampler where
  weights : List ℚ
  num_samples : Nat
  replacement : Bool
  deriving Repr

/-- Configuration of a `torch.utils.data.DataLoader` as used in
`create_dataloaders`: the wrapped dataset, the batch size, the optional
sampler (the weighted sampler for train; sequential default otherwise),
and the worker count. -/
structure DataLoader where
  dataset : TransformSubset
  batch_size : Nat
  sampler : Option WeightedRandomSampler
  num_workers : Nat

/-- The 6-tuple returned by `create_dataloaders`. -/
structure CreateDataloadersResult where
  train_loader : DataLoader
  val_loader : DataLoader
  test_loader : DataLoader
  train_dataset : TransformSubset
  val_dataset : TransformSubset
  test_dataset : TransformSubset

/-- The success branch of `create_dataloaders`: the three
`TransformSubset(Subset(filtered, idx), transform)` wrappers, the
`WeightedRandomSampler` over the training sample weights (with
`num_samples=len(sample_weights)` and `replacement=True`), and the three
`DataLoader`s (sampler on train only; val/test sequential). -/
def build_result (fd : FilteredDataset) (train_idx val_idx test_idx : List Nat)
    (transform_train transform_val transform_test : Image → Image)
    (batch_size num_workers : Nat) : CreateDataloadersResult :=
  ⟨⟨⟨⟨fd, train_idx⟩, some transform_train⟩, batch_size,
    some ⟨sample_weights (train_idx.map (fun i => fd.targets.getD i 0)),
          (sample_weights (train_idx.map (fun i => fd.targets.getD i 0))).length,
          true⟩, num_workers⟩,
   ⟨⟨⟨fd, val_idx⟩, some transform_val⟩, batch_size, none, num_workers⟩,
   ⟨⟨⟨fd, test_idx⟩, some transform_test⟩, batch_size, none, num_workers⟩,
   ⟨⟨fd, train_idx⟩, some transform_train⟩,
   ⟨⟨fd, val_idx⟩, some transform_val⟩,
   ⟨⟨fd, test_idx⟩, some transform_test⟩⟩

/-- `create_dataloaders(dataset_dir, batch_size, num_workers)`.
External collaborators are passed explicitly: `dataset_dir_exists` stands
for `os.path.exists(dataset_dir)`, `full_dataset` for the corpus that
`datasets.ImageFolder(dataset_dir)` enumerates, `randomState` for numpy's
`RandomState` seed → stream family (the source passes `random_state=42` to
both `train_test_split` calls, so each call gets a fresh stream seeded 42),
and the three transform pipelines.  The missing-directory check raises
`FileNotFoundError`, modelled as an error result. -/
def create_dataloaders (randomState : Nat → Nat → Nat → List Nat)
    (dataset_dir_exists : Bool) (full_dataset : ImageFolder)
    (transform_train transform_val transform_test : Image → Image)
    (batch_size : Nat := 16) (num_workers : Nat := 4) :
    Except String CreateDataloadersResult :=
  if !dataset_dir_exists then
    .error "Dataset directory not found."
  else
    match train_test_split
        (List.range (FilteredDataset.init full_dataset class_names).length)
        (FilteredDataset.init full_dataset class_names).targets one_fifth
        (randomState 42) with
    | .error e => .error e
    | .ok (train_idx, temp_idx) =>
      match train_test_split temp_idx
          (temp_idx.map (fun i =>
            (FilteredDataset.init full_dataset class_names).targets.getD i 0))
          one_half (randomState 42) with
      | .error e => .error e
      | .ok (val_idx, test_idx) =>
        .ok (build_result (FilteredDataset.init full_dataset class_names)
          train_idx val_idx test_idx transform_train transform_val
          transform_test batch_size num_workers)

/-! ### Generic list lemmas -/

/-- Reading a list back entry by entry over its index range. -/
theorem getD_map_range (l : List α) (d : α) :
    (List.range l.length).map (fun i => l.getD i d) = l := by
  apply List.ext_getElem
  · simp
  · intro i h1 h2
    rw [List.getElem_map, List.getElem_range, List.getD_eq_getElem l d h2]

/-- Zipping a list with a pointwise function of itself. -/
theorem zip_self_map (l : List α) (g : α → β) :
    l.zip (l.map g) = l.map (fun x => (x, g x)) := by
  induction l with
  | nil => rfl
  | cons a t ih => simp [ih]

/-- `count` as the length of a `filter`. -/
theorem count_eq_length_filter (l : List Nat) (c : Nat) :
    l.count c = (l.filter (fun x => x == c)).length := by
  rw [List.count, List.countP_eq_length_filter]

/-- Filtering pairs `(x, g x)` on the first component. -/
theorem filter_fst_map_pair (l : List Nat) (g : Nat → ℚ) (c : Nat) :
    (l.map (fun x => (x, g x))).filter (fun p => p.1 == c) =
    (l.filter (fun x => x == c)).map (fun x => (x, g x)) := by
  induction l with
  | nil => rfl
  | cons a t ih =>
    by_cases hac : a == c <;> simp [hac, ih]

/-- Summing a constant over a list. -/
theorem sum_map_const_rat (l : List α) (r : ℚ) :
    (l.map (fun _ => r)).sum = l.length * r := by
  induction l with
  | nil => simp
  | cons a t ih =>
    simp only [List.map_cons, List.sum_cons, ih, List.length_cons]
    push_cast
    ring

/-! ### C10: the transform touches only the image component -/

/-- C10: for every index, `TransformSubset.__getitem__` returns the wrapped
subset's label unchanged (the transform is applied to the image component
only), and `TransformSubset.__len__` equals the wrapped subset's length. -/
theorem C10_label_unchanged_and_len (t : TransformSubset) (i : Int) :
    (t.getItem i).map Prod.snd = (t.subset.getItem i).map Prod.snd ∧
    t.length = t.subset.length := by
  constructor
  · unfold TransformSubset.getItem
    cases t.subset.getItem i with
    | none => rfl
    | some p => cases t.transform <;> simp
  · rfl

/-! ### C8: empty catalog -/

/-- The filtering loop keeps nothing when the allow-list is empty. -/
theorem filterLoop_nil_names (classes : List String)
    (samples : List (Image × Nat)) (k : Nat) :
    filterLoop classes [] k samples = ([], []) := by
  induction samples generalizing k with
  | nil => rfl
  | cons s rest ih => simp [filterLoop, ih]

/-- C8 (amended): filtering with an empty class catalog does not fail; it
succeeds and produces an empty filtered index (the source has no
empty-catalog check at all). -/
theorem C8_empty_catalog_yields_empty_index (ds : ImageFolder) :
    (FilteredDataset.init ds []).filtered_indices = [] ∧
    (FilteredDataset.init ds []).targets = [] := by
  unfold FilteredDataset.init
  rw [filterLoop_nil_names]
  exact ⟨rfl, rfl⟩

/-- A two-sample demonstration corpus. -/
def demo_corpus : ImageFolder :=
  ⟨["basophil", "platelet"], [("b0", 0), ("p0", 1)]⟩

/-- C8 counterexample: on a concrete non-empty corpus with an empty
catalog, `FilteredDataset.__init__` completes successfully and returns the
empty filtered index — it does not fail with a `ConfigurationError` (no
such error path exists in the code). -/
theorem C8_counterexample_no_error_on_empty_catalog :
    FilteredDataset.init demo_corpus [] = ⟨demo_corpus, [], []⟩ := rfl

/-! ### C2: class-balanced sample weights -/

/-- C2: each training sample's weight is the inverse of its class's count
among the training labels (in input order, one weight per position), and
the weights of any class present in the training labels sum to exactly 1. -/
theorem C2_sample_weights_inverse_frequency (l : List Nat) :
    (sample_weights l).length = l.length ∧
    (∀ i, i < l.length →
      (sample_weights l).getD i 0 = 1 / (l.count (l.getD i 0) : ℚ)) ∧
    (∀ c, c ∈ l →
      (((l.zip (sample_weights l)).filter (fun p => p.1 == c)).map
        Prod.snd).sum = 1) := by
  refine ⟨by simp [sample_weights], ?_, ?_⟩
  · intro i h
    have h2 : i < (sample_weights l).length := by simp [sample_weights, h]
    rw [List.getD_eq_getElem _ _ h2, List.getD_eq_getElem _ _ h]
    simp [sample_weights]
  · intro c hc
    simp only [sample_weights]
    rw [zip_self_map l (fun t => 1 / (l.count t : ℚ))]
    rw [filter_fst_map_pair l (fun t => 1 / (l.count t : ℚ)) c, List.map_map]
    have hall : ∀ x ∈ l.filter (fun x => x == c),
        (Prod.snd ∘ fun x => (x, 1 / (l.count x : ℚ))) x =
        (fun _ => 1 / (l.count c : ℚ)) x := by
      intro x hx
      have := (List.mem_filter.mp hx).2
      simp only [beq_iff_eq] at this
      simp [this]
    rw [List.map_congr_left hall, sum_map_const_rat, ← count_eq_length_filter]
    have hpos : 0 < l.count c := List.count_pos_iff.mpr hc
    have : (l.count c : ℚ) ≠ 0 := by positivity
    field_simp

/-- C2 witness: the spec's scenario `[A, A, A, B]` — every `A` position
weighs 1/3 and the class-`A` weights sum to 1. -/
theorem C2_witness :
    ((((([0, 0, 0, 1] : List Nat)).zip
      (sample_weights [0, 0, 0, 1])).filter (fun p => p.1 == 0)).map
        Prod.snd).sum = 1 :=
  (C2_sample_weights_inverse_frequency [0, 0, 0, 1]).2.2 0 (by decide)

/-! ### C9: index-range behaviour of `__getitem__` -/

/-- Python list indexing succeeds exactly on `-len ≤ i < len`. -/
theorem pyGet_isSome_iff (l : List α) (i : Int) :
    (pyGet l i).isSome = true ↔ (-(l.length : Int) ≤ i ∧ i < l.length) := by
  unfold pyGet
  by_cases hneg : i < 0 <;>
    simp only [hneg, if_true, if_false] <;> split <;> simp <;> omega

/-- A successful Python list access returns a member of the list. -/
theorem pyGet_mem {l : List α} {i : Int} {v : α} (h : pyGet l i = some v) :
    v ∈ l := by
  simp only [pyGet] at h
  split at h
  all_goals try split at h
  all_goals first
    | exact (Option.some_inj.mp h) ▸ List.get_mem _ _ _
    | exact absurd h (by simp)

/-- Internal consistency of a built `FilteredDataset`: one target per kept
position, and every kept position indexes into the wrapped sample list.
(`FilteredDataset.__init__` establishes this; it is stated separately so
the access lemmas apply to any state satisfying it.) -/
def FilteredDataset.Wf (fd : FilteredDataset) : Prop :=
  fd.targets.length = fd.filtered_indices.length ∧
  ∀ j ∈ fd.filtered_indices, j < fd.dataset.samples.length

instance (fd : FilteredDataset) : Decidable fd.Wf := by
  unfold FilteredDataset.Wf; infer_instance

/-- Consistency of a `Subset`: a well-formed base and in-range positions. -/
def Subset.Wf (s : Subset) : Prop :=
  s.dataset.Wf ∧ ∀ j ∈ s.indices, j < s.dataset.length

instance (s : Subset) : Decidable s.Wf := by
  unfold Subset.Wf; infer_instance

/-- `FilteredDataset.__getitem__` succeeds exactly on Python-range indices. -/
theorem FilteredDataset.getItem_isSome_iff (fd : FilteredDataset)
    (hw : fd.Wf) (i : Int) :
    ((fd.getItem i).isSome = true) ↔
      (-(fd.length : Int) ≤ i ∧ i < fd.length) := by
  unfold FilteredDataset.getItem
  constructor
  · intro h
    cases hp : pyGet fd.filtered_indices i with
    | none => rw [hp] at h; simp at h
    | some j =>
      have := (pyGet_isSome_iff fd.filtered_indices i).mp (by rw [hp]; rfl)
      exact this
  · intro h
    have h1 : (pyGet fd.filtered_indices i).isSome = true :=
      (pyGet_isSome_iff fd.filtered_indices i).mpr h
    obtain ⟨j, hj⟩ := Option.isSome_iff_exists.mp h1
    have hjmem : j ∈ fd.filtered_indices := pyGet_mem hj
    have hjlt : j < fd.dataset.samples.length := hw.2 j hjmem
    have h2 : (pyGet fd.dataset.samples (j : Int)).isSome = true := by
      rw [pyGet_isSome_iff]
      omega
    obtain ⟨p, hp⟩ := Option.isSome_iff_exists.mp h2
    have h3 : (pyGet fd.targets i).isSome = true := by
      rw [pyGet_isSome_iff, hw.1]
      exact h
    obtain ⟨lb, hlb⟩ := Option.isSome_iff_exists.mp h3
    rw [hj]
    simp only [Option.bind_eq_bind, Option.some_bind]
    unfold ImageFolder.getItem
    rw [hp]
    simp only [Option.some_bind]
    rw [hlb]
    simp only [Option.some_bind]
    rfl

/-- `Subset.__getitem__` succeeds exactly on Python-range indices. -/
theorem Subset.getItem_some_iff_range (s : Subset) (hw : s.Wf) (i : Int) :
    ((s.getItem i).isSome = true) ↔
      (-(s.length : Int) ≤ i ∧ i < s.length) := by
  unfold Subset.getItem
  constructor
  · intro h
    cases hp : pyGet s.indices i with
    | none => rw [hp] at h; simp at h
    | some j => exact (pyGet_isSome_iff s.indices i).mp (by rw [hp]; rfl)
  · intro h
    have h1 : (pyGet s.indices i).isSome = true :=
      (pyGet_isSome_iff s.indices i).mpr h
    obtain ⟨j, hj⟩ := Option.isSome_iff_exists.mp h1
    have hjlt : j < s.dataset.length := hw.2 j (pyGet_mem hj)
    rw [hj]
    show (s.dataset.getItem (j : Int)).isSome = true
    rw [s.dataset.getItem_isSome_iff hw.1]
    omega

/-- C9 (amended): `__getitem__` on a `TransformSubset` (and likewise on a
`FilteredDataset`) returns a pair exactly when the integer index lies in
Python's accepted range `-len ≤ i < len`; an index outside that range
raises `IndexError`.  Indices in `[-len, 0)` do NOT raise — Python indexing
wraps them around — which is where the original claim fails. -/
theorem C9_getItem_defined_iff_python_range (t : TransformSubset)
    (fd : FilteredDataset) (i : Int) (ht : t.subset.Wf) (hfd : fd.Wf) :
    (((t.getItem i).isSome = true) ↔
      (-(t.length : Int) ≤ i ∧ i < t.length)) ∧
    (((fd.getItem i).isSome = true) ↔
      (-(fd.length : Int) ≤ i ∧ i < fd.length)) := by
  constructor
  · have hsame : (t.getItem i).isSome = (t.subset.getItem i).isSome := by
      unfold TransformSubset.getItem
      cases t.subset.getItem i <;> rfl
    rw [hsame]
    exact t.subset.getItem_some_iff_range ht i
  · exact fd.getItem_isSome_iff hfd i

/-- The demonstration corpus filtered through the full catalog, wrapped the
way `create_dataloaders` wraps a split (`TransformSubset` over `Subset`). -/
def demo_ts : TransformSubset :=
  ⟨⟨FilteredDataset.init demo_corpus class_names, [0, 1]⟩, none⟩

/-- C9 counterexample: index `-1` is outside `[0, len())`, yet
`TransformSubset.__getitem__(-1)` succeeds (Python negative indexing wraps
around); it does not fail with an `IndexError`-kind error. -/
theorem C9_counterexample_negative_index :
    (demo_ts.getItem (-1)).isSome = true ∧ ¬(0 ≤ (-1 : Int)) := by
  constructor
  · rfl
  · decide

/-- C9 witness: the range equivalence applied at a concrete in-range and
the concrete state. -/
theorem C9_witness :
    ((demo_ts.getItem 5).isSome = true ↔
      (-(demo_ts.length : Int) ≤ 5 ∧ (5 : Int) < demo_ts.length)) ∧
    (((FilteredDataset.init demo_corpus class_names).getItem 5).isSome = true ↔
      (-(((FilteredDataset.init demo_corpus class_names)).length : Int) ≤ 5 ∧
        (5 : Int) < ((FilteredDataset.init demo_corpus class_names)).length)) :=
  C9_getItem_defined_iff_python_range demo_ts
    (FilteredDataset.init demo_corpus class_names) 5 (by decide) (by decide)

/-! ### C5: determinism of the splitter -/

/-- The identity permutation stream: a concrete stand-in for a seeded
`RandomState` stream, used to run the pipeline on concrete corpora. -/
def idRng : Nat → Nat → List Nat := fun _ n => List.range n

/-- The seed-indexed family whose every stream is `idRng`. -/
def idRandomState : Nat → Nat → Nat → List Nat := fun _ => idRng

/-- C5: the splitter is deterministic — `train_test_split` is a pure
function of its index list, labels, fraction and random stream, and
`create_dataloaders` depends on the `RandomState` family only through the
stream drawn for the explicit seed 42, so two invocations with the same
inputs and the same seed produce identical partitions. -/
theorem C5_split_deterministic
    (rs1 rs2 : Nat → Nat → Nat → List Nat) (dE : Bool) (ds : ImageFolder)
    (t1 t2 t3 : Image → Image) (bs nw : Nat)
    (X y : List Nat) (p : ℚ) (rng1 rng2 : Nat → Nat → List Nat)
    (hrng : ∀ k n, rng1 k n = rng2 k n)
    (hrs : ∀ k n, rs1 42 k n = rs2 42 k n) :
    train_test_split X y p rng1 = train_test_split X y p rng2 ∧
    create_dataloaders rs1 dE ds t1 t2 t3 bs nw =
      create_dataloaders rs2 dE ds t1 t2 t3 bs nw := by
  have h1 : rng1 = rng2 := funext fun k => funext fun n => hrng k n
  have h2 : rs1 42 = rs2 42 := funext fun k => funext fun n => hrs k n
  subst h1
  refine ⟨rfl, ?_⟩
  unfold create_dataloaders
  rw [h2]

/-- C5 witness: two invocations with identical concrete inputs and streams
agree. -/
theorem C5_witness :
    train_test_split (List.range 10) [0, 0, 0, 0, 0, 1, 1, 1, 1, 1] (1/5)
        idRng =
      train_test_split (List.range 10) [0, 0, 0, 0, 0, 1, 1, 1, 1, 1] (1/5)
        idRng ∧
    create_dataloaders idRandomState true demo_corpus id id id 16 4 =
      create_dataloaders idRandomState true demo_corpus id id id 16 4 :=
  C5_split_deterministic idRandomState idRandomState true demo_corpus
    id id id 16 4 (List.range 10) [0, 0, 0, 0, 0, 1, 1, 1, 1, 1] (1/5)
    idRng idRng (fun _ _ => rfl) (fun _ _ => rfl)

/-! ### C3: filtering is stable, complete, and remaps into the catalog -/

/-- Filtering a mapped list. -/
theorem filter_map_comm (l : List α) (f : α → β) (p : β → Bool) :
    (l.map f).filter p = (l.filter (fun x => p (f x))).map f := by
  induction l with
  | nil => rfl
  | cons a t ih => by_cases h : p (f a) <;> simp [h, ih]

/-- `lookup` skips an association block none of whose keys match. -/
theorem lookup_append_right (l₁ l₂ : List (String × Nat)) (c : String)
    (h : ∀ p ∈ l₁, ¬c = p.1) : (l₁ ++ l₂).lookup c = l₂.lookup c := by
  induction l₁ with
  | nil => rfl
  | cons p t ih =>
    obtain ⟨k, v⟩ := p
    rw [List.cons_append, List.lookup_cons]
    cases hck : (c == k) with
    | true => exact absurd (beq_iff_eq.mp hck) (h (k, v) (by simp))
    | false => exact ih (fun q hq => h q (by simp [hq]))

/-- `lookup` through an append when the left block already answers. -/
theorem lookup_append_left (l₁ l₂ : List (String × Nat)) (c : String)
    (v : Nat) (h : l₁.lookup c = some v) :
    (l₁ ++ l₂).lookup c = some v := by
  induction l₁ with
  | nil => cases h
  | cons p t ih =>
    obtain ⟨k, w⟩ := p
    rw [List.cons_append, List.lookup_cons]
    rw [List.lookup_cons] at h
    cases hck : (c == k) with
    | true => rw [hck] at h; exact h
    | false => rw [hck] at h; exact ih h

/-- Looking up a catalog member in the reversed enumeration dictionary
finds the first occurrence's position (offset variant, for induction). -/
theorem lookup_rev_enumFrom (names : List String) (c : String) :
    ∀ off : Nat, names.Nodup → c ∈ names →
    ((names.enumFrom off).map (fun p => (p.2, p.1))).reverse.lookup c =
      some (off + names.indexOf c) := by
  induction names with
  | nil => intro off _ hc; cases hc
  | cons a rest ih =>
    intro off hnd hc
    rw [List.enumFrom_cons, List.map_cons, List.reverse_cons]
    by_cases hca : c = a
    · subst hca
      have hnr : c ∉ rest := (List.nodup_cons.mp hnd).1
      rw [lookup_append_right]
      · simp [List.lookup_cons, List.indexOf_cons]
      · intro p hp hcp
        rw [List.mem_reverse] at hp
        obtain ⟨q, hq, rfl⟩ := List.mem_map.mp hp
        obtain ⟨i, x⟩ := q
        apply hnr
        obtain ⟨-, -, hx⟩ := List.mem_enumFrom hq
        rw [hcp]
        exact hx ▸ List.getElem_mem _
    · have hcr : c ∈ rest := (List.mem_cons.mp hc).resolve_left hca
      rw [lookup_append_left _ _ _ _
        (ih (off + 1) (List.nodup_cons.mp hnd).2 hcr)]
      have hac : (a == c) = false :=
        beq_eq_false_iff_ne.mpr (fun hac => hca hac.symm)
      rw [List.indexOf_cons, hac]
      simp only [cond_false, Option.some_inj]
      omega

/-- On a duplicate-free catalog, the dict built by `class_to_idx` maps a
member class name to its position in the catalog. -/
theorem dictGetD_eq_indexOf (names : List String) (c : String)
    (hnd : names.Nodup) (hc : c ∈ names) :
    dictGetD (class_to_idx names) c = names.indexOf c := by
  unfold dictGetD class_to_idx
  rw [show names.enum = names.enumFrom 0 from rfl,
      lookup_rev_enumFrom names c 0 hnd hc]
  simp

/-- The condition `class_name in class_names` of the filtering loop. -/
def keepSample (classes names : List String) (s : Image × Nat) : Bool :=
  names.contains (classes.getD s.2 "")

/-- The kept positions of the filtering loop are the in-order positions of
the samples whose class name is in the allow-list, shifted by the loop's
starting counter. -/
theorem filterLoop_fst (classes names : List String)
    (samples : List (Image × Nat)) : ∀ k : Nat,
    (filterLoop classes names k samples).1 =
    ((List.range samples.length).filter
      (fun i => keepSample classes names (samples.getD i ("", 0)))).map
      (· + k) := by
  induction samples with
  | nil => intro k; rfl
  | cons s rest ih =>
    intro k
    rw [List.length_cons, List.range_succ_eq_map, List.filter_cons]
    have hc0 : keepSample classes names ((s :: rest).getD 0 ("", 0)) =
        keepSample classes names s := by rw [List.getD_cons_zero]
    rw [filter_map_comm]
    have hcong : (List.range rest.length).filter
        (fun x => keepSample classes names
          ((s :: rest).getD (Nat.succ x) ("", 0))) =
        (List.range rest.length).filter
          (fun i => keepSample classes names (rest.getD i ("", 0))) := by
      apply List.filter_congr
      intro i _
      rw [Nat.succ_eq_add_one, List.getD_cons_succ]
    rw [hcong]
    by_cases hk : names.contains (classes.getD s.2 "")
    · have : keepSample classes names s = true := hk
      rw [hc0, this]
      simp only [if_true]
      show (filterLoop classes names k (s :: rest)).1 = _
      unfold filterLoop
      rw [if_pos hk]
      rw [ih (k + 1)]
      simp only [List.map_cons, List.map_map, Nat.zero_add]
      congr 1
      apply List.map_congr_left
      intro i _
      simp only [Function.comp_apply, Nat.succ_eq_add_one]
      omega
    · have : keepSample classes names s = false := by
        simp only [keepSample]
        exact Bool.of_not_eq_true hk
      rw [hc0, this]
      simp only [if_false, Bool.false_eq_true]
      show (filterLoop classes names k (s :: rest)).1 = _
      unfold filterLoop
      rw [if_neg hk]
      rw [ih (k + 1)]
      rw [List.map_map]
      apply List.map_congr_left
      intro i _
      simp only [Function.comp_apply, Nat.succ_eq_add_one]
      omega

/-- The remapped labels collected by the filtering loop: one dict lookup
per kept position, in the same order, independent of the loop counter. -/
theorem filterLoop_snd (classes names : List String)
    (samples : List (Image × Nat)) : ∀ k : Nat,
    (filterLoop classes names k samples).2 =
    ((List.range samples.length).filter
      (fun i => keepSample classes names (samples.getD i ("", 0)))).map
      (fun i => dictGetD (class_to_idx names)
        (classes.getD (samples.getD i ("", 0)).2 "")) := by
  induction samples with
  | nil => intro k; rfl
  | cons s rest ih =>
    intro k
    rw [List.length_cons, List.range_succ_eq_map, List.filter_cons]
    have hc0 : keepSample classes names ((s :: rest).getD 0 ("", 0)) =
        keepSample classes names s := by rw [List.getD_cons_zero]
    rw [filter_map_comm]
    have hcong : (List.range rest.length).filter
        (fun x => keepSample classes names
          ((s :: rest).getD (Nat.succ x) ("", 0))) =
        (List.range rest.length).filter
          (fun i => keepSample classes names (rest.getD i ("", 0))) := by
      apply List.filter_congr
      intro i _
      rw [Nat.succ_eq_add_one, List.getD_cons_succ]
    rw [hcong]
    by_cases hk : names.contains (classes.getD s.2 "")
    · have : keepSample classes names s = true := hk
      rw [hc0, this]
      simp only [if_true]
      show (filterLoop classes names k (s :: rest)).2 = _
      unfold filterLoop
      rw [if_pos hk]
      rw [ih (k + 1)]
      simp only [List.map_cons, List.map_map, List.getD_cons_zero]
      refine congrArg (List.cons _) ?_
      apply List.map_congr_left
      intro i _
      simp only [Function.comp_apply, Nat.succ_eq_add_one, List.getD_cons_succ]
    · have : keepSample classes names s = false := by
        simp only [keepSample]
        exact Bool.of_not_eq_true hk
      rw [hc0, this]
      simp only [if_false, Bool.false_eq_true]
      show (filterLoop classes names k (s :: rest)).2 = _
      unfold filterLoop
      rw [if_neg hk]
      rw [ih (k + 1)]
      rw [List.map_map]
      apply List.map_congr_left
      intro i _
      simp only [Function.comp_apply, Nat.succ_eq_add_one, List.getD_cons_succ]

/-- C3: the filtering step keeps exactly the samples whose raw class name
is in the allow-list — the kept positions are the in-order positions of
those samples (stable filter, no shuffling), the index length equals their
number, and every remapped label is the class's position in the allow-list
(in particular an integer in `[0, len(L))`). -/
theorem C3_filtering_stable_complete_remapped (ds : ImageFolder)
    (names : List String) (hnd : names.Nodup) :
    (FilteredDataset.init ds names).filtered_indices =
      (List.range ds.samples.length).filter
        (fun i => keepSample ds.classes names (ds.samples.getD i ("", 0))) ∧
    (FilteredDataset.init ds names).targets =
      (FilteredDataset.init ds names).filtered_indices.map
        (fun i => names.indexOf
          (ds.classes.getD (ds.samples.getD i ("", 0)).2 "")) ∧
    (FilteredDataset.init ds names).filtered_indices.length =
      (ds.samples.filter (fun s => keepSample ds.classes names s)).length ∧
    ∀ t ∈ (FilteredDataset.init ds names).targets, t < names.length := by
  have h1 : (FilteredDataset.init ds names).filtered_indices =
      (List.range ds.samples.length).filter
        (fun i => keepSample ds.classes names (ds.samples.getD i ("", 0))) := by
    show (filterLoop ds.classes names 0 ds.samples).1 = _
    rw [filterLoop_fst ds.classes names ds.samples 0]
    simp
  have h2raw : (FilteredDataset.init ds names).targets =
      ((List.range ds.samples.length).filter
        (fun i => keepSample ds.classes names (ds.samples.getD i ("", 0)))).map
        (fun i => dictGetD (class_to_idx names)
          (ds.classes.getD (ds.samples.getD i ("", 0)).2 "")) := by
    show (filterLoop ds.classes names 0 ds.samples).2 = _
    rw [filterLoop_snd ds.classes names ds.samples 0]
  have hmem : ∀ i ∈ (List.range ds.samples.length).filter
      (fun i => keepSample ds.classes names (ds.samples.getD i ("", 0))),
      (ds.classes.getD (ds.samples.getD i ("", 0)).2 "") ∈ names := by
    intro i hi
    have := (List.mem_filter.mp hi).2
    simp only [keepSample] at this
    exact List.mem_of_elem_eq_true this
  have h2 : (FilteredDataset.init ds names).targets =
      (FilteredDataset.init ds names).filtered_indices.map
        (fun i => names.indexOf
          (ds.classes.getD (ds.samples.getD i ("", 0)).2 "")) := by
    rw [h2raw, h1]
    apply List.map_congr_left
    intro i hi
    exact dictGetD_eq_indexOf names _ hnd (hmem i hi)
  refine ⟨h1, h2, ?_, ?_⟩
  · rw [h1]
    conv_rhs => rw [← getD_map_range ds.samples ("", 0)]
    rw [filter_map_comm, List.length_map]
  · intro t ht
    rw [h2] at ht
    obtain ⟨i, hi, rfl⟩ := List.mem_map.mp ht
    rw [h1] at hi
    exact List.indexOf_lt_length.mpr (hmem i hi)

/-- A corpus whose class list mixes catalog and non-catalog names. -/
def demo_mixed : ImageFolder :=
  ⟨["eosinophil", "unknown", "platelet"],
   [("a", 0), ("b", 1), ("c", 2), ("d", 0)]⟩

/-- C3 witness: the characterisation applied to a concrete mixed corpus
and the module's catalog. -/
theorem C3_witness :
    (FilteredDataset.init demo_mixed class_names).filtered_indices =
      (List.range demo_mixed.samples.length).filter
        (fun i => keepSample demo_mixed.classes class_names
          (demo_mixed.samples.getD i ("", 0))) ∧
    (FilteredDataset.init demo_mixed class_names).targets =
      (FilteredDataset.init demo_mixed class_names).filtered_indices.map
        (fun i => class_names.indexOf
          (demo_mixed.classes.getD (demo_mixed.samples.getD i ("", 0)).2 "")) ∧
    (FilteredDataset.init demo_mixed class_names).filtered_indices.length =
      (demo_mixed.samples.filter
        (fun s => keepSample demo_mixed.classes class_names s)).length ∧
    ∀ t ∈ (FilteredDataset.init demo_mixed class_names).targets,
      t < class_names.length :=
  C3_filtering_stable_complete_remapped demo_mixed class_names (by decide)

/-! ### C7: the training sampler configuration -/

/-- C7: when the pipeline succeeds, the training `DataLoader` carries a
`WeightedRandomSampler` drawing with replacement, whose weights are the
class-balanced sample weights of the training labels (one per training
position), and whose draw count per pass equals the number of training
positions. -/
theorem C7_train_sampler_config (rs : Nat → Nat → Nat → List Nat) (dE : Bool)
    (ds : ImageFolder) (t1 t2 t3 : Image → Image) (bs nw : Nat)
    (out : CreateDataloadersResult)
    (h : create_dataloaders rs dE ds t1 t2 t3 bs nw = .ok out) :
    ∃ s : WeightedRandomSampler,
      out.train_loader.sampler = some s ∧
      s.replacement = true ∧
      s.weights = sample_weights
        (out.train_dataset.subset.indices.map
          (fun i => (FilteredDataset.init ds class_names).targets.getD i 0)) ∧
      s.num_samples = s.weights.length ∧
      s.num_samples = out.train_dataset.subset.indices.length := by
  unfold create_dataloaders at h
  split at h
  · exact absurd h (by simp)
  · split at h
    · exact absurd h (by simp)
    · split at h
      · exact absurd h (by simp)
      · injection h with h
        subst h
        exact ⟨_, rfl, rfl, rfl, rfl, by simp [build_result, sample_weights]⟩

/-- A balanced 20-sample corpus (10 basophil, 10 platelet) on which the
whole pipeline succeeds. -/
def demo_balanced : ImageFolder :=
  ⟨["basophil", "platelet"],
   List.replicate 10 ("b", 0) ++ List.replicate 10 ("p", 1)⟩

set_option maxRecDepth 4000 in
/-- The first (train vs. val+test) split of the balanced corpus, evaluated
concretely. -/
theorem demo_balanced_split1 :
    train_test_split
      (List.range (FilteredDataset.init demo_balanced class_names).length)
      (FilteredDataset.init demo_balanced class_names).targets one_fifth
      (idRandomState 42) =
    .ok ([0, 1, 2, 3, 4, 5, 6, 7, 10, 11, 12, 13, 14, 15, 16, 17],
         [8, 9, 18, 19]) := by decide

/-- The pipeline output on the balanced demonstration corpus. -/
def demo_created : CreateDataloadersResult :=
  build_result (FilteredDataset.init demo_balanced class_names)
    [0, 1, 2, 3, 4, 5, 6, 7, 10, 11, 12, 13, 14, 15, 16, 17] [8, 18] [9, 19]
    id id id 16 4

set_option maxRecDepth 4000 in
/-- The full pipeline run on the balanced corpus, evaluated concretely. -/
theorem demo_balanced_create :
    create_dataloaders idRandomState true demo_balanced id id id 16 4 =
      .ok demo_created := by
  unfold create_dataloaders
  rw [if_neg (by decide)]
  rw [demo_balanced_split1]
  rfl

/-- C7 witness: the sampler facts at the concrete balanced corpus. -/
theorem C7_witness :
    ∃ s : WeightedRandomSampler,
      demo_created.train_loader.sampler = some s ∧
      s.replacement = true ∧
      s.weights = sample_weights
        (demo_created.train_dataset.subset.indices.map
          (fun i =>
            (FilteredDataset.init demo_balanced class_names).targets.getD
              i 0)) ∧
      s.num_samples = s.weights.length ∧
      s.num_samples = demo_created.train_dataset.subset.indices.length :=
  C7_train_sampler_config idRandomState true demo_balanced id id id 16 4
    demo_created demo_balanced_create

/-! ### C6: failure on a class with fewer than two members -/

/-- Any class value below the running maximum of `y` survives into
`classesOf`. -/
theorem mem_classesOf {y : List Nat} {c : Nat} (hc : c ∈ y) :
    c ∈ classesOf y := by
  unfold classesOf
  rw [List.mem_filter]
  refine ⟨?_, List.elem_eq_true_of_mem hc⟩
  rw [List.mem_range]
  have : c ≤ y.foldr max 0 := by
    induction y with
    | nil => cases hc
    | cons a t ih =>
      rcases List.mem_cons.mp hc with rfl | hmem
      · exact Nat.le_max_left _ _
      · exact le_trans (ih hmem) (Nat.le_max_right _ _)
  omega

/-- The splitter refuses any label list in which some class has fewer than
two members. -/
theorem train_test_split_small_class_error (X y : List Nat) (p : ℚ)
    (rng : Nat → Nat → List Nat) (c : Nat) (hc : c ∈ y)
    (hcount : y.count c < 2) :
    (train_test_split X y p rng).isOk = false := by
  have hmem : y.count c ∈ classCounts y := by
    unfold classCounts
    exact List.mem_map.mpr ⟨c, mem_classesOf hc, rfl⟩
  unfold train_test_split
  split
  · rfl
  · split
    · rfl
    · split
      · rfl
      · split
        · rfl
        · split
          · rfl
          · exfalso
            rename_i hlen htrain hany hk1 hk2
            exact hany (List.any_eq_true.mpr
              ⟨y.count c, hmem, by simpa using hcount⟩)

/-- C6 (amended): if any class of the filtered index has fewer than two
members, `create_dataloaders` fails (the splitter raises) rather than
producing a partition.  Unlike the original claim, the raised error does
not report the offending class name (see the counterexample). -/
theorem C6_small_class_split_fails (rs : Nat → Nat → Nat → List Nat)
    (dE : Bool) (ds : ImageFolder) (t1 t2 t3 : Image → Image) (bs nw : Nat)
    (c : Nat) (hc : c ∈ (FilteredDataset.init ds class_names).targets)
    (hcount : (FilteredDataset.init ds class_names).targets.count c < 2) :
    (create_dataloaders rs dE ds t1 t2 t3 bs nw).isOk = false := by
  unfold create_dataloaders
  split
  · rfl
  · split
    · rfl
    · next p heq =>
      exfalso
      have hbad := train_test_split_small_class_error
        (List.range (FilteredDataset.init ds class_names).length)
        (FilteredDataset.init ds class_names).targets one_fifth (rs 42) c hc
        hcount
      rw [heq] at hbad
      exact absurd (show (true : Bool) = false from hbad) (by decide)

/-- A corpus whose `platelet` class has a single sample. -/
def demo_singleton : ImageFolder :=
  ⟨["basophil", "platelet"], [("b", 0), ("b", 0), ("b", 0), ("p", 1)]⟩

/-- C6 witness: the pipeline fails on the concrete corpus whose `platelet`
class has one member. -/
theorem C6_witness :
    (create_dataloaders idRandomState true demo_singleton id id id
      16 4).isOk = false :=
  C6_small_class_split_fails idRandomState true demo_singleton id id id 16 4
    7 (by decide) (by decide)

/-- Substring occurrence on character lists. -/
def containsSub (needle hay : List Char) : Bool :=
  (List.range (hay.length + 1)).any (fun k => needle.isPrefixOf (hay.drop k))

set_option maxRecDepth 4000 in
/-- C6 counterexample: on the concrete corpus with a singleton `platelet`
class the pipeline fails with scikit-learn's fixed `ValueError` message,
and that message does not mention the offending class name `platelet` —
so the split error does not report the offending class name(s) as the
original claim states. -/
theorem C6_counterexample_error_does_not_name_class :
    create_dataloaders idRandomState true demo_singleton id id id 16 4 =
      .error least_populated_msg ∧
    containsSub "platelet".data least_populated_msg.data = false := by
  constructor
  · unfold create_dataloaders
    rw [if_neg (by decide)]
    rw [show train_test_split
        (List.range (FilteredDataset.init demo_singleton class_names).length)
        (FilteredDataset.init demo_singleton class_names).targets one_fifth
        (idRandomState 42) = .error least_populated_msg from by decide]
  · decide

/-! ### Allocation lemmas for `approximate_mode`

The next block establishes the facts this development needs about the
draw-count allocator: its result has one entry per class, each entry is the
floored proportional share or that share plus one, the entries sum to
exactly `n_draws`, no entry exceeds its class count, and allocating all the
remaining draws returns the remaining counts unchanged. -/

/-- Division distributes sub-additively over a sum of naturals. -/
theorem sum_map_div_le (l : List Nat) (m : Nat) :
    (l.map (fun a => a / m)).sum ≤ l.sum / m := by
  induction l with
  | nil => simp
  | cons a tl ih =>
    simp only [List.map_cons, List.sum_cons]
    calc a / m + (tl.map (fun a => a / m)).sum ≤ a / m + tl.sum / m :=
          Nat.add_le_add_left ih _
      _ ≤ (a + tl.sum) / m := by
          rcases Nat.eq_zero_or_pos m with hm | hm
          · subst hm; simp
          · rw [Nat.le_div_iff_mul_le hm, Nat.add_mul]
            exact Nat.add_le_add (Nat.div_mul_le_self a m)
              (Nat.div_mul_le_self tl.sum m)

/-- Summed division-with-remainder identity over a list. -/
theorem sum_div_add_mod (l : List Nat) (m : Nat) :
    m * (l.map (fun a => a / m)).sum + (l.map (fun a => a % m)).sum =
    l.sum := by
  induction l with
  | nil => simp
  | cons a tl ih =>
    simp only [List.map_cons, List.sum_cons]
    rw [Nat.mul_add]
    have := Nat.div_add_mod a m
    omega

/-- Multiplying out a sum. -/
theorem sum_map_mul_right_nat (l : List Nat) (d : Nat) :
    (l.map (fun a => a * d)).sum = l.sum * d := by
  induction l with
  | nil => simp
  | cons a tl ih => simp [ih, Nat.add_mul]

/-- Counting members of a duplicate-free in-range set by indicator sum. -/
theorem sum_map_ite_mem (k : Nat) (ch : List Nat) (hnd : ch.Nodup)
    (hlt : ∀ x ∈ ch, x < k) :
    ((List.range k).map (fun i => if i ∈ ch then 1 else 0)).sum =
      ch.length := by
  have h1 : ∀ (l : List Nat) (p : Nat → Prop) (_ : DecidablePred p),
      (l.map (fun i => if p i then 1 else 0)).sum =
      (l.filter (fun i => decide (p i))).length := by
    intro l p hp
    induction l with
    | nil => simp
    | cons a tl ih =>
      by_cases hpa : p a <;> simp [hpa, ih] <;> omega
  rw [h1 (List.range k) (fun i => i ∈ ch) inferInstance]
  have hperm : ((List.range k).filter (fun i => decide (i ∈ ch))).Perm ch := by
    rw [List.perm_ext_iff_of_nodup
      (List.Nodup.filter _ (List.nodup_range k)) hnd]
    intro a
    rw [List.mem_filter, List.mem_range]
    constructor
    · rintro ⟨-, ha⟩
      simpa using ha
    · intro ha
      exact ⟨hlt a ha, by simpa using ha⟩
  exact hperm.length_eq

/-- Summing a pointwise difference of lists. -/
theorem sum_zipWith_sub (l₁ l₂ : List Nat) (hlen : l₂.length = l₁.length)
    (hle : ∀ i, l₂.getD i 0 ≤ l₁.getD i 0) :
    (l₁.zipWith (· - ·) l₂).sum = l₁.sum - l₂.sum ∧ l₂.sum ≤ l₁.sum := by
  induction l₁ generalizing l₂ with
  | nil =>
    rw [List.length_nil, List.length_eq_zero] at hlen
    subst hlen; simp
  | cons a tl ih =>
    cases l₂ with
    | nil => cases hlen
    | cons b tl₂ =>
      have hab : b ≤ a := hle 0
      have htl : ∀ i, tl₂.getD i 0 ≤ tl.getD i 0 := fun i => hle (i + 1)
      obtain ⟨ih1, ih2⟩ := ih tl₂ (by simpa using hlen) htl
      constructor
      · simp only [List.zipWith_cons_cons, List.sum_cons, ih1]
        omega
      · simp only [List.sum_cons]
        omega

theorem am_floored_length (counts : List Nat) (d : Nat) :
    (am_floored counts d).length = counts.length := by
  simp [am_floored]

theorem am_remainder_length (counts : List Nat) (d : Nat) :
    (am_remainder counts d).length = counts.length := by
  simp [am_remainder]

theorem approximate_mode_length (counts : List Nat) (d : Nat) :
    (approximate_mode counts d).length = counts.length := by
  simp [approximate_mode]

theorem am_floored_getD (counts : List Nat) (d : Nat) {i : Nat}
    (hi : i < counts.length) :
    (am_floored counts d).getD i 0 =
      counts.getD i 0 * d / counts.sum := by
  rw [List.getD_eq_getElem _ _ (by simpa [am_floored] using hi),
      List.getD_eq_getElem _ _ hi]
  simp [am_floored]

theorem am_remainder_getD (counts : List Nat) (d : Nat) {i : Nat}
    (hi : i < counts.length) :
    (am_remainder counts d).getD i 0 =
      counts.getD i 0 * d % counts.sum := by
  rw [List.getD_eq_getElem _ _ (by simpa [am_remainder] using hi),
      List.getD_eq_getElem _ _ hi]
  simp [am_remainder]

theorem approximate_mode_getD (counts : List Nat) (d : Nat) {i : Nat}
    (hi : i < counts.length) :
    (approximate_mode counts d).getD i 0 =
      (am_floored counts d).getD i 0 +
        if i ∈ am_chosen counts d then 1 else 0 := by
  rw [List.getD_eq_getElem _ _ (by simpa [approximate_mode] using hi)]
  simp [approximate_mode]

theorem am_order_perm (counts : List Nat) (d : Nat) :
    (am_order counts d).Perm (List.range counts.length) :=
  List.perm_insertionSort _ _

theorem am_order_length (counts : List Nat) (d : Nat) :
    (am_order counts d).length = counts.length := by
  rw [(am_order_perm counts d).length_eq, List.length_range]

theorem am_chosen_nodup (counts : List Nat) (d : Nat) :
    (am_chosen counts d).Nodup :=
  ((List.take_sublist _ _).nodup
    ((am_order_perm counts d).symm.nodup (List.nodup_range _)))

theorem am_chosen_lt (counts : List Nat) (d : Nat) :
    ∀ x ∈ am_chosen counts d, x < counts.length := by
  intro x hx
  have : x ∈ am_order counts d := (List.take_sublist _ _).mem hx
  simpa using (am_order_perm counts d).mem_iff.mp this

/-- The floored shares cannot exceed the requested number of draws. -/
theorem am_floored_sum_le (counts : List Nat) (d : Nat)
    (hd : d ≤ counts.sum) :
    (am_floored counts d).sum ≤ d := by
  rcases Nat.eq_zero_or_pos counts.sum with ht | ht
  · have : am_floored counts d = counts.map (fun _ => 0) := by
      unfold am_floored
      rw [ht]
      simp
    rw [this]
    simp
  · have h1 : am_floored counts d =
        (counts.map (fun c => c * d)).map (fun a => a / counts.sum) := by
      unfold am_floored
      rw [List.map_map]
      rfl
    calc (am_floored counts d).sum
        ≤ (counts.map (fun c => c * d)).sum / counts.sum := by
          rw [h1]; exact sum_map_div_le _ _
      _ = counts.sum * d / counts.sum := by
          rw [sum_map_mul_right_nat]
      _ = d := Nat.mul_div_cancel_left d ht

/-- The remaining draws equal the total fractional mass over the common
denominator. -/
theorem am_need_mul (counts : List Nat) (d : Nat) (hd : d ≤ counts.sum) :
    counts.sum * am_need counts d = (am_remainder counts d).sum := by
  have hid := sum_div_add_mod (counts.map (fun c => c * d)) counts.sum
  have h1 : (counts.map (fun c => c * d)).map (fun a => a / counts.sum) =
      am_floored counts d := by
    unfold am_floored; rw [List.map_map]; rfl
  have h2 : (counts.map (fun c => c * d)).map (fun a => a % counts.sum) =
      am_remainder counts d := by
    unfold am_remainder; rw [List.map_map]; rfl
  rw [h1, h2, sum_map_mul_right_nat] at hid
  have hfl : (am_floored counts d).sum ≤ d := am_floored_sum_le counts d hd
  have hkey : counts.sum * am_need counts d =
      counts.sum * d - counts.sum * (am_floored counts d).sum := by
    unfold am_need
    exact Nat.mul_sub _ _ _
  have hmono : counts.sum * (am_floored counts d).sum ≤ counts.sum * d :=
    Nat.mul_le_mul_left _ hfl
  omega

theorem am_remainder_lt (counts : List Nat) (d : Nat)
    (ht : 0 < counts.sum) :
    ∀ x ∈ am_remainder counts d, x < counts.sum := by
  intro x hx
  obtain ⟨c, -, rfl⟩ := List.mem_map.mp hx
  exact Nat.mod_lt _ ht

/-- Fewer leftover draws than classes. -/
theorem am_need_lt (counts : List Nat) (d : Nat) (hd : d ≤ counts.sum)
    (hne : counts ≠ []) : am_need counts d < counts.length := by
  have hk : 0 < counts.length := List.length_pos.mpr hne
  rcases Nat.eq_zero_or_pos counts.sum with ht | ht
  · have : d = 0 := by omega
    subst this
    unfold am_need
    omega
  · have hmul := am_need_mul counts d hd
    have hbound : (am_remainder counts d).sum ≤
        (am_remainder counts d).length * (counts.sum - 1) := by
      apply List.sum_le_card_nsmul
      intro x hx
      have := am_remainder_lt counts d ht x hx
      omega
    rw [am_remainder_length] at hbound
    by_contra hge
    push_neg at hge
    have h1 : counts.sum * counts.length ≤ counts.sum * am_need counts d :=
      Nat.mul_le_mul_left _ hge
    have h2 : counts.length * (counts.sum - 1) < counts.length * counts.sum :=
      (Nat.mul_lt_mul_left hk).mpr (by omega)
    have h3 : counts.sum * counts.length = counts.length * counts.sum :=
      Nat.mul_comm _ _
    omega

/-- A position whose share has no fractional remainder is never granted an
extra draw: the grants go to the `need_to_add` largest remainders, there
are fewer grants than the total fractional mass allows, and the sort is
stable. -/
theorem am_chosen_pos_remainder (counts : List Nat) (d : Nat)
    (hd : d ≤ counts.sum) {i : Nat} (hi : i ∈ am_chosen counts d) :
    0 < (am_remainder counts d).getD i 0 := by
  by_contra hz
  push_neg at hz
  have hz0 : (am_remainder counts d).getD i 0 = 0 := Nat.le_zero.mp hz
  have hneedpos : 0 < am_need counts d := by
    rcases Nat.eq_zero_or_pos (am_need counts d) with h0 | h0
    · exfalso
      have : am_chosen counts d = [] := by
        unfold am_chosen
        rw [h0, List.take_zero]
      rw [this] at hi
      cases hi
    · exact h0
  have hik : i < counts.length := am_chosen_lt counts d i hi
  have hneedlt : am_need counts d < counts.length :=
    am_need_lt counts d hd (by
      intro h
      rw [h] at hik
      cases hik)
  have ht : 0 < counts.sum := by
    rcases Nat.eq_zero_or_pos counts.sum with ht0 | ht0
    · exfalso
      have hd0 : d = 0 := by omega
      have : am_need counts d = 0 := by
        unfold am_need
        omega
      omega
    · exact ht0
  haveI : IsTotal Nat (fun a b : Nat => (am_remainder counts d).getD b 0 ≤
      (am_remainder counts d).getD a 0) :=
    ⟨fun a b => le_total _ _⟩
  haveI : IsTrans Nat (fun a b : Nat => (am_remainder counts d).getD b 0 ≤
      (am_remainder counts d).getD a 0) :=
    ⟨fun _ _ _ hab hbc => le_trans hbc hab⟩
  have hsorted : List.Sorted
      (fun a b : Nat => (am_remainder counts d).getD b 0 ≤
        (am_remainder counts d).getD a 0) (am_order counts d) :=
    List.sorted_insertionSort _ _
  have hsplit := List.take_append_drop (am_need counts d) (am_order counts d)
  have hpair : ∀ b ∈ (am_order counts d).drop (am_need counts d),
      (am_remainder counts d).getD b 0 ≤ (am_remainder counts d).getD i 0 := by
    have hp : List.Pairwise
        (fun a b : Nat => (am_remainder counts d).getD b 0 ≤
          (am_remainder counts d).getD a 0)
        ((am_order counts d).take (am_need counts d) ++
          (am_order counts d).drop (am_need counts d)) := by
      rw [hsplit]
      exact hsorted
    exact fun b hb => (List.pairwise_append.mp hp).2.2 i hi b hb
  have horder_sum : ((am_order counts d).map
      (fun x => (am_remainder counts d).getD x 0)).sum =
      (am_remainder counts d).sum := by
    rw [((am_order_perm counts d).map
      (fun x => (am_remainder counts d).getD x 0)).sum_eq]
    have h := getD_map_range (am_remainder counts d) 0
    rw [am_remainder_length] at h
    rw [h]
  have hdrop0 : (((am_order counts d).drop (am_need counts d)).map
      (fun x => (am_remainder counts d).getD x 0)).sum = 0 := by
    apply List.sum_eq_zero
    intro x hx
    obtain ⟨b, hb, rfl⟩ := List.mem_map.mp hx
    have := hpair b hb
    omega
  have htlen : ((am_order counts d).take (am_need counts d)).length =
      am_need counts d := by
    rw [List.length_take, am_order_length]
    omega
  have hitake : i ∈ (am_order counts d).take (am_need counts d) := hi
  have htake_sum : (((am_order counts d).take (am_need counts d)).map
      (fun x => (am_remainder counts d).getD x 0)).sum =
      ((((am_order counts d).take (am_need counts d)).erase i).map
        (fun x => (am_remainder counts d).getD x 0)).sum := by
    rw [((List.perm_cons_erase hitake).map
      (fun x => (am_remainder counts d).getD x 0)).sum_eq]
    simp only [List.map_cons, List.sum_cons, hz0, Nat.zero_add]
  have herase_len : (((am_order counts d).take (am_need counts d)).erase
      i).length = am_need counts d - 1 := by
    rw [List.length_erase_of_mem hitake, htlen]
  have hbound : ((((am_order counts d).take (am_need counts d)).erase i).map
      (fun x => (am_remainder counts d).getD x 0)).sum ≤
      (am_need counts d - 1) * (counts.sum - 1) := by
    have hb2 : ∀ x ∈ (((am_order counts d).take (am_need counts d)).erase
        i).map (fun x => (am_remainder counts d).getD x 0),
        x ≤ counts.sum - 1 := by
      intro x hx
      obtain ⟨b, hb, rfl⟩ := List.mem_map.mp hx
      have hbo : b ∈ am_order counts d :=
        (List.take_sublist _ _).mem (List.mem_of_mem_erase hb)
      have hbk : b < counts.length := by
        simpa using (am_order_perm counts d).mem_iff.mp hbo
      have hbk2 : b < (am_remainder counts d).length := by
        rw [am_remainder_length]
        exact hbk
      have hmem : (am_remainder counts d).getD b 0 ∈
          am_remainder counts d := by
        rw [List.getD_eq_getElem _ _ hbk2]
        exact List.getElem_mem _
      have := am_remainder_lt counts d ht _ hmem
      omega
    have := List.sum_le_card_nsmul _ _ hb2
    rw [List.length_map, herase_len, smul_eq_mul] at this
    exact this
  have hsum_eq : counts.sum * am_need counts d =
      (am_remainder counts d).sum := am_need_mul counts d hd
  have hsplit_sum : (am_remainder counts d).sum =
      (((am_order counts d).take (am_need counts d)).map
        (fun x => (am_remainder counts d).getD x 0)).sum +
      (((am_order counts d).drop (am_need counts d)).map
        (fun x => (am_remainder counts d).getD x 0)).sum := by
    rw [← List.sum_append, ← List.map_append, hsplit, horder_sum]
  have h1 : (am_need counts d - 1) * (counts.sum - 1) ≤
      (am_need counts d - 1) * counts.sum :=
    Nat.mul_le_mul_left _ (by omega)
  have h2 : (am_need counts d - 1) * counts.sum <
      am_need counts d * counts.sum := by
    have := (Nat.mul_lt_mul_left ht).mpr
      (show am_need counts d - 1 < am_need counts d by omega)
    have hc1 : counts.sum * (am_need counts d - 1) =
        (am_need counts d - 1) * counts.sum := Nat.mul_comm _ _
    have hc2 : counts.sum * am_need counts d =
        am_need counts d * counts.sum := Nat.mul_comm _ _
    omega
  have h3 : am_need counts d * counts.sum =
      counts.sum * am_need counts d := Nat.mul_comm _ _
  omega

/-- Splitting a pointwise sum of two functions over a list. -/
theorem sum_map_add_split (l : List α) (f g : α → Nat) :
    (l.map (fun i => f i + g i)).sum = (l.map f).sum + (l.map g).sum := by
  induction l with
  | nil => rfl
  | cons a t ih =>
    simp only [List.map_cons, List.sum_cons, ih]
    omega

/-- The allocated draws sum to exactly `n_draws`. -/
theorem approximate_mode_sum (counts : List Nat) (d : Nat)
    (hd : d ≤ counts.sum) (hne : counts ≠ []) :
    (approximate_mode counts d).sum = d := by
  have hneedlt := am_need_lt counts d hd hne
  have h1 : (List.range counts.length).map
      (fun i => (am_floored counts d).getD i 0) = am_floored counts d := by
    have := getD_map_range (am_floored counts d) 0
    rw [am_floored_length] at this
    exact this
  have h2 := sum_map_ite_mem counts.length (am_chosen counts d)
    (am_chosen_nodup counts d) (am_chosen_lt counts d)
  have hchlen : (am_chosen counts d).length = am_need counts d := by
    unfold am_chosen
    rw [List.length_take, am_order_length]
    omega
  have hfl := am_floored_sum_le counts d hd
  unfold approximate_mode
  rw [sum_map_add_split, h1, h2, hchlen]
  unfold am_need
  omega

/-- No class is allocated more training draws than it has members. -/
theorem approximate_mode_le (counts : List Nat) (d : Nat)
    (hd : d ≤ counts.sum) {i : Nat} (hi : i < counts.length) :
    (approximate_mode counts d).getD i 0 ≤ counts.getD i 0 := by
  rw [approximate_mode_getD counts d hi, am_floored_getD counts d hi]
  by_cases hmem : i ∈ am_chosen counts d
  · rw [if_pos hmem]
    have hpos := am_chosen_pos_remainder counts d hd hmem
    rw [am_remainder_getD counts d hi] at hpos
    have ht : 0 < counts.sum := by
      rcases Nat.eq_zero_or_pos counts.sum with h0 | h0
      · exfalso
        have hd0 : d = 0 := by omega
        rw [h0, hd0] at hpos
        simp at hpos
      · exact h0
    have hdm := Nat.div_add_mod (counts.getD i 0 * d) counts.sum
    have hcd : counts.getD i 0 * d ≤ counts.getD i 0 * counts.sum :=
      Nat.mul_le_mul_left _ hd
    have hfllt : counts.getD i 0 * d / counts.sum < counts.getD i 0 := by
      by_contra hge
      push_neg at hge
      have h5 : counts.sum * counts.getD i 0 ≤
          counts.sum * (counts.getD i 0 * d / counts.sum) :=
        Nat.mul_le_mul_left _ hge
      have hcm : counts.getD i 0 * counts.sum =
          counts.sum * counts.getD i 0 := Nat.mul_comm _ _
      omega
    omega
  · rw [if_neg hmem, Nat.add_zero]
    calc counts.getD i 0 * d / counts.sum
        ≤ counts.getD i 0 * counts.sum / counts.sum :=
          Nat.div_le_div_right (Nat.mul_le_mul_left _ hd)
      _ ≤ counts.getD i 0 := by
          rcases Nat.eq_zero_or_pos counts.sum with h0 | h0
          · rw [h0]
            simp
          · rw [Nat.mul_div_cancel _ h0]

/-- Each allocation is the floored proportional share or one more. -/
theorem approximate_mode_bounds (counts : List Nat) (d : Nat) {i : Nat}
    (hi : i < counts.length) :
    counts.getD i 0 * d / counts.sum ≤ (approximate_mode counts d).getD i 0 ∧
    (approximate_mode counts d).getD i 0 ≤
      counts.getD i 0 * d / counts.sum + 1 := by
  rw [approximate_mode_getD counts d hi, am_floored_getD counts d hi]
  by_cases hmem : i ∈ am_chosen counts d <;> simp [hmem]

/-- Allocating exactly the total count returns the counts unchanged (this
is what happens to the test-side allocation: after the training draws are
removed, `n_test` equals the remaining total). -/
theorem approximate_mode_total (counts : List Nat) :
    approximate_mode counts counts.sum = counts := by
  have hfl : am_floored counts counts.sum = counts := by
    unfold am_floored
    conv_rhs => rw [← List.map_id counts]
    apply List.map_congr_left
    intro c hc
    rcases Nat.eq_zero_or_pos counts.sum with h0 | h0
    · have hc0 : c = 0 := by
        rw [List.sum_eq_zero_iff] at h0
        exact h0 c hc
      simp [hc0, h0]
    · simp [Nat.mul_div_cancel _ h0]
  have hneed : am_need counts counts.sum = 0 := by
    unfold am_need
    rw [hfl]
    omega
  have hch : am_chosen counts counts.sum = [] := by
    unfold am_chosen
    rw [hneed, List.take_zero]
  unfold approximate_mode
  rw [hch]
  simp only [List.not_mem_nil, if_false, Nat.add_zero, hfl]
  exact getD_map_range counts 0

/-! ### Class grouping and permutation plumbing of the splitter -/

theorem count_range (n a : Nat) :
    (List.range n).count a = if a < n then 1 else 0 := by
  by_cases ha : a < n
  · rw [if_pos ha]
    exact List.count_eq_one_of_mem (List.nodup_range n)
      (List.mem_range.mpr ha)
  · rw [if_neg ha]
    exact List.count_eq_zero_of_not_mem (fun hmem => ha (List.mem_range.mp hmem))

/-- Summing the indicator of one value over a duplicate-free list. -/
theorem sum_map_indicator_eq (l : List Nat) (v : Nat) (hnd : l.Nodup) :
    (l.map (fun c => if v = c then 1 else 0)).sum =
      if v ∈ l then 1 else 0 := by
  induction l with
  | nil => simp
  | cons b t ih =>
    obtain ⟨hb, ht⟩ := List.nodup_cons.mp hnd
    simp only [List.map_cons, List.sum_cons]
    by_cases hvb : v = b
    · subst hvb
      rw [if_pos rfl, if_pos (List.mem_cons_self _ _)]
      have h0 : (t.map (fun c => if v = c then 1 else 0)).sum = 0 := by
        apply List.sum_eq_zero
        intro x hx
        obtain ⟨c, hc, rfl⟩ := List.mem_map.mp hx
        rw [if_neg (fun hvc => hb (by rw [hvc]; exact hc))]
      omega
    · rw [if_neg hvb, ih ht]
      simp [List.mem_cons, hvb]

theorem mem_classesOf_iff (y : List Nat) (c : Nat) :
    c ∈ classesOf y ↔ c ∈ y := by
  constructor
  · intro h
    exact List.mem_of_elem_eq_true (List.mem_filter.mp h).2
  · exact mem_classesOf

theorem classesOf_nodup (y : List Nat) : (classesOf y).Nodup :=
  (List.nodup_range _).filter _

/-- The per-class counts sum to the number of samples. -/
theorem classCounts_sum (y : List Nat) : (classCounts y).sum = y.length := by
  have hperm : (classesOf y).Perm y.dedup := by
    rw [List.perm_ext_iff_of_nodup (classesOf_nodup y) (List.nodup_dedup y)]
    intro a
    rw [mem_classesOf_iff, List.mem_dedup]
  have := (hperm.map (fun c => y.count c)).sum_eq
  unfold classCounts
  rw [this, List.sum_map_count_dedup_eq_length]

theorem classIndices_length (y : List Nat) (c : Nat) :
    (classIndices y c).length = y.count c := by
  conv_rhs => rw [← getD_map_range y 0]
  rw [count_eq_length_filter, filter_map_comm, List.length_map]
  rfl

theorem classIndices_mem (y : List Nat) (c : Nat) {i : Nat} :
    i ∈ classIndices y c ↔ i < y.length ∧ y.getD i 0 = c := by
  unfold classIndices
  rw [List.mem_filter, List.mem_range]
  simp

theorem classIndices_nodup (y : List Nat) (c : Nat) :
    (classIndices y c).Nodup :=
  (List.nodup_range _).filter _

theorem classIndices_count (y : List Nat) (c a : Nat) :
    (classIndices y c).count a =
      if a < y.length ∧ y.getD a 0 = c then 1 else 0 := by
  by_cases hmem : a ∈ classIndices y c
  · rw [List.count_eq_one_of_mem (classIndices_nodup y c) hmem,
        if_pos ((classIndices_mem y c).mp hmem)]
  · rw [List.count_eq_zero_of_not_mem hmem,
        if_neg (fun h => hmem ((classIndices_mem y c).mpr h))]

/-- The per-class position groups partition the position range. -/
theorem flatten_classIndices_perm (y : List Nat) :
    (((classesOf y).map (fun c => classIndices y c)).flatten).Perm
      (List.range y.length) := by
  rw [List.perm_iff_count]
  intro a
  rw [List.count_flatten, List.map_map, count_range]
  have hcnt : (classesOf y).map
      ((fun l => List.count a l) ∘ fun c => classIndices y c) =
      (classesOf y).map
        (fun c => if a < y.length ∧ y.getD a 0 = c then 1 else 0) :=
    List.map_congr_left (fun c _ => classIndices_count y c a)
  rw [hcnt]
  by_cases ha : a < y.length
  · have hEq : (classesOf y).map
        (fun c => if a < y.length ∧ y.getD a 0 = c then 1 else 0) =
        (classesOf y).map (fun c => if y.getD a 0 = c then 1 else 0) :=
      List.map_congr_left (fun c _ => by simp [ha])
    rw [hEq, sum_map_indicator_eq _ _ (classesOf_nodup y), if_pos ha]
    have hmem : y.getD a 0 ∈ y := by
      rw [List.getD_eq_getElem _ _ ha]
      exact List.getElem_mem _
    rw [if_pos ((mem_classesOf_iff y _).mpr hmem)]
  · rw [if_neg ha]
    apply List.sum_eq_zero
    intro x hx
    obtain ⟨c, hc, rfl⟩ := List.mem_map.mp hx
    rw [if_neg (fun h => ha h.1)]

/-- Applying a valid permutation of positions permutes the list. -/
theorem applyPerm_perm (perm l : List Nat)
    (h : perm.Perm (List.range l.length)) : (applyPerm perm l).Perm l := by
  unfold applyPerm
  have h2 := h.map (fun p => l.getD p 0)
  rw [getD_map_range l 0] at h2
  exact h2

/-- Reading a list through `getD` of the shifted range. -/
theorem map_range_getD (l : List α) (f : α → β) (d : α) :
    (List.range l.length).map (fun k => f (l.getD k d)) = l.map f := by
  have h := congrArg (List.map f) (getD_map_range l d)
  rw [List.map_map] at h
  exact h

/-- Flattening pointwise-permuted groups. -/
theorem flatten_map_perm (l : List α) (f g : α → List Nat)
    (h : ∀ x ∈ l, (f x).Perm (g x)) :
    ((l.map f).flatten).Perm ((l.map g).flatten) := by
  induction l with
  | nil => rfl
  | cons a t ih =>
    simp only [List.map_cons, List.flatten_cons]
    exact (h a (by simp)).append (ih (fun x hx => h x (by simp [hx])))

/-- De-interleaving the per-class train and test draws. -/
theorem flatten_map_append_perm (l : List α) (f g : α → List Nat) :
    ((l.map f).flatten ++ (l.map g).flatten).Perm
      ((l.map (fun x => f x ++ g x)).flatten) := by
  induction l with
  | nil => simp
  | cons a t ih =>
    simp only [List.map_cons, List.flatten_cons]
    have h1 : (f a ++ (t.map f).flatten) ++ (g a ++ (t.map g).flatten) =
        f a ++ ((t.map f).flatten ++ (g a ++ (t.map g).flatten)) := by
      rw [List.append_assoc]
    rw [h1]
    have h2 : ((t.map f).flatten ++ (g a ++ (t.map g).flatten)).Perm
        (g a ++ ((t.map f).flatten ++ (t.map g).flatten)) :=
      List.perm_append_comm_assoc _ _ _
    refine (h2.append_left (f a)).trans ?_
    rw [← List.append_assoc]
    exact ih.append_left _

/-- A `RandomState` stream is valid when each drawn permutation really
permutes the index range of the requested size. -/
def ValidRng (rng : Nat → Nat → List Nat) : Prop :=
  ∀ k n, (rng k n).Perm (List.range n)

/-- Core structure of a successful stratified split: the chosen train and
test positions together permute the full position range, and per class the
train and test draw counts add up to the class count. -/
theorem split_positions_perm (y : List Nat) (p : ℚ)
    (rng : Nat → Nat → List Nat) (hrng : ValidRng rng) (hne : y ≠ [])
    (hts : n_test_of p y.length ≤ y.length) :
    (split_train_positions y p rng ++ split_test_positions y p rng).Perm
      (List.range y.length) ∧
    (∀ k, k < (classesOf y).length →
      (n_i_of y p).getD k 0 + (t_i_of y p).getD k 0 =
        (classCounts y).getD k 0) := by
  have hcne : classCounts y ≠ [] := by
    unfold classCounts
    intro hmapnil
    obtain ⟨a, ha⟩ := List.exists_mem_of_ne_nil y hne
    have hmem : a ∈ classesOf y := mem_classesOf ha
    rw [List.map_eq_nil] at hmapnil
    rw [hmapnil] at hmem
    cases hmem
  have hsum : (classCounts y).sum = y.length := classCounts_sum y
  have hklen : (classCounts y).length = (classesOf y).length := by
    unfold classCounts
    rw [List.length_map]
  have hntr_le : n_train_of p y.length ≤ (classCounts y).sum := by
    rw [hsum]
    exact Nat.sub_le _ _
  have hni_sum : (n_i_of y p).sum = n_train_of p y.length :=
    approximate_mode_sum _ _ hntr_le hcne
  have hni_len : (n_i_of y p).length = (classCounts y).length :=
    approximate_mode_length _ _
  have hni_le : ∀ i, (n_i_of y p).getD i 0 ≤ (classCounts y).getD i 0 := by
    intro i
    by_cases hi : i < (classCounts y).length
    · exact approximate_mode_le _ _ hntr_le hi
    · push_neg at hi
      rw [List.getD_eq_default _ _ (by omega : (classCounts y).length ≤ i),
          List.getD_eq_default _ _ (by rw [hni_len]; omega)]
  have hrem := sum_zipWith_sub (classCounts y) (n_i_of y p) hni_len hni_le
  have hrem_sum : ((classCounts y).zipWith (· - ·) (n_i_of y p)).sum =
      n_test_of p y.length := by
    rw [hrem.1, hni_sum, hsum]
    unfold n_train_of
    omega
  have ht_i : t_i_of y p = (classCounts y).zipWith (· - ·) (n_i_of y p) := by
    unfold t_i_of
    rw [show n_test_of p y.length =
      ((classCounts y).zipWith (· - ·) (n_i_of y p)).sum from hrem_sum.symm]
    exact approximate_mode_total _
  have hsum_ti : ∀ k, k < (classesOf y).length →
      (n_i_of y p).getD k 0 + (t_i_of y p).getD k 0 =
        (classCounts y).getD k 0 := by
    intro k hk
    rw [ht_i]
    have hk' : k < (classCounts y).length := by rw [hklen]; exact hk
    have hkz : k < ((classCounts y).zipWith (· - ·) (n_i_of y p)).length := by
      rw [List.length_zipWith, hni_len]
      omega
    rw [List.getD_eq_getElem _ _ hkz, List.getElem_zipWith,
        ← List.getD_eq_getElem (classCounts y) 0 hk',
        ← List.getD_eq_getElem (n_i_of y p) 0 (by rw [hni_len]; exact hk')]
    have := hni_le k
    omega
  have hpart : ∀ k ∈ List.range (classesOf y).length,
      (trainPart y p rng k ++ testPart y p rng k).Perm
        (classIndices y ((classesOf y).getD k 0)) := by
    intro k hk
    rw [List.mem_range] at hk
    have hcp : (class_perm y rng k).Perm
        (classIndices y ((classesOf y).getD k 0)) :=
      applyPerm_perm _ _ (hrng k _)
    have hcount : (classIndices y ((classesOf y).getD k 0)).length =
        (classCounts y).getD k 0 := by
      rw [classIndices_length]
      have hk' : k < (classCounts y).length := by rw [hklen]; exact hk
      rw [List.getD_eq_getElem _ _ hk']
      unfold classCounts
      rw [List.getElem_map, ← List.getD_eq_getElem _ _ hk]
    unfold trainPart testPart
    have htp : (n_i_of y p).getD k 0 + (t_i_of y p).getD k 0 =
        (class_perm y rng k).length := by
      rw [hcp.length_eq, hcount]
      exact hsum_ti k hk
    have hdrop : ((class_perm y rng k).drop ((n_i_of y p).getD k 0)).take
        ((t_i_of y p).getD k 0) =
        (class_perm y rng k).drop ((n_i_of y p).getD k 0) := by
      apply List.take_of_length_le
      rw [List.length_drop]
      omega
    rw [hdrop, List.take_append_drop]
    exact hcp
  have hchain : (((List.range (classesOf y).length).map
      (trainPart y p rng)).flatten ++
      ((List.range (classesOf y).length).map
        (testPart y p rng)).flatten).Perm (List.range y.length) := by
    refine (flatten_map_append_perm _ _ _).trans ?_
    refine (flatten_map_perm _ _ _ hpart).trans ?_
    rw [map_range_getD (classesOf y) (fun c => classIndices y c) 0]
    exact flatten_classIndices_perm y
  have h1 : (split_train_positions y p rng).Perm
      (((List.range (classesOf y).length).map (trainPart y p rng)).flatten) := by
    unfold split_train_positions
    exact applyPerm_perm _ _ (hrng _ _)
  have h2 : (split_test_positions y p rng).Perm
      (((List.range (classesOf y).length).map (testPart y p rng)).flatten) := by
    unfold split_test_positions
    exact applyPerm_perm _ _ (hrng _ _)
  exact ⟨(h1.append h2).trans hchain, hsum_ti⟩

/-- A successful `train_test_split` returns two lists that together
permute the input index list. -/
theorem train_test_split_ok_perm {X y : List Nat} {p : ℚ}
    {rng : Nat → Nat → List Nat} {tr te : List Nat} (hrng : ValidRng rng)
    (h : train_test_split X y p rng = .ok (tr, te)) :
    (tr ++ te).Perm X := by
  unfold train_test_split at h
  split at h
  · simp at h
  · split at h
    · simp at h
    · split at h
      · simp at h
      · split at h
        · simp at h
        · split at h
          · simp at h
          · rename_i hlen hntr hany hk1 hk2
            injection h with h
            cases h
            push_neg at hlen
            have hlen' : X.length = y.length := hlen
            have hntr' : n_train_of p y.length ≠ 0 := by
              rw [← hlen']
              exact hntr
            have hts : n_test_of p y.length ≤ y.length := by
              unfold n_train_of at hntr'
              omega
            have hne : y ≠ [] := by
              intro hy
              apply hntr'
              rw [hy]
              unfold n_train_of
              simp
            have core := split_positions_perm y p rng hrng hne hts
            have hperm := core.1.map (fun i => X.getD i 0)
            rw [← List.map_append]
            refine hperm.trans ?_
            rw [show (List.range y.length).map (fun i => X.getD i 0) = X from ?_]
            rw [← hlen']
            exact getD_map_range X 0

/-- The identity streams are valid permutation streams. -/
theorem idRandomState_valid : ∀ s, ValidRng (idRandomState s) :=
  fun _ _ _ => List.Perm.refl _

/-- C1: on success, the train/val/test index lists of the returned split
views partition `range(len(FilteredIndex))`: together they permute the full
filtered position range (hence cover it), and they are pairwise disjoint. -/
theorem C1_split_partitions_range (rs : Nat → Nat → Nat → List Nat)
    (dE : Bool) (ds : ImageFolder) (t1 t2 t3 : Image → Image) (bs nw : Nat)
    (out : CreateDataloadersResult) (hrs : ∀ s, ValidRng (rs s))
    (h : create_dataloaders rs dE ds t1 t2 t3 bs nw = .ok out) :
    (out.train_dataset.subset.indices ++ out.val_dataset.subset.indices ++
      out.test_dataset.subset.indices).Perm
      (List.range (FilteredDataset.init ds class_names).length) ∧
    out.train_dataset.subset.indices.Disjoint
      out.val_dataset.subset.indices ∧
    out.train_dataset.subset.indices.Disjoint
      out.test_dataset.subset.indices ∧
    out.val_dataset.subset.indices.Disjoint
      out.test_dataset.subset.indices := by
  unfold create_dataloaders at h
  split at h
  · simp at h
  · split at h
    · simp at h
    · next train_idx temp_idx heq1 =>
      split at h
      · simp at h
      · next val_idx test_idx heq2 =>
        injection h with h
        cases h
        simp only [build_result]
        have hp1 := train_test_split_ok_perm (hrs 42) heq1
        have hp2 := train_test_split_ok_perm (hrs 42) heq2
        have hfull : ((train_idx ++ val_idx) ++ test_idx).Perm
            (List.range (FilteredDataset.init ds class_names).length) := by
          rw [List.append_assoc]
          exact (hp2.append_left train_idx).trans hp1
        have hnd : ((train_idx ++ val_idx) ++ test_idx).Nodup :=
          hfull.nodup_iff.mpr (List.nodup_range _)
        obtain ⟨hnd12, hnd3, hdisj3⟩ := List.nodup_append.mp hnd
        obtain ⟨hnd1, hnd2, hdisj12⟩ := List.nodup_append.mp hnd12
        obtain ⟨hd13, hd23⟩ := List.disjoint_append_left.mp hdisj3
        exact ⟨hfull, hdisj12, hd13, hd23⟩

/-- C1 witness: the partition facts at the concrete balanced corpus. -/
theorem C1_witness :
    (demo_created.train_dataset.subset.indices ++
      demo_created.val_dataset.subset.indices ++
      demo_created.test_dataset.subset.indices).Perm
      (List.range (FilteredDataset.init demo_balanced class_names).length) ∧
    demo_created.train_dataset.subset.indices.Disjoint
      demo_created.val_dataset.subset.indices ∧
    demo_created.train_dataset.subset.indices.Disjoint
      demo_created.test_dataset.subset.indices ∧
    demo_created.val_dataset.subset.indices.Disjoint
      demo_created.test_dataset.subset.indices :=
  C1_split_partitions_range idRandomState true demo_balanced id id id 16 4
    demo_created idRandomState_valid demo_balanced_create

/-! ### C4: per-class allocation counts and the stratification tolerance -/

/-- Dividing a non-positive product by its positive factor. -/
theorem nonpos_of_scaled (a b : ℚ) (hb : 0 < b) (h : a * b ≤ 0) : a ≤ 0 := by
  by_contra hpos
  push_neg at hpos
  exact absurd h (not_le.mpr (mul_pos hpos hb))

/-- Dividing a non-negative product by its positive factor. -/
theorem nonneg_of_scaled (a b : ℚ) (hb : 0 < b) (h : 0 ≤ a * b) : 0 ≤ a := by
  have := nonpos_of_scaled (-a) b hb (by nlinarith)
  linarith

/-- A two-sided bound on `10*x - b*C` by `25` turns into a bound of
`5/(2*C)` on the fraction `x/C` against the target `b/10`. -/
theorem abs_frac_of_scaled (x b C : ℚ) (hC : 0 < C)
    (hlb : -25 ≤ 10*x - b*C) (hub : 10*x - b*C ≤ 25) :
    |x/C - b/10| ≤ 5/(2*C) := by
  have hx : x/C - b/10 = (10*x - b*C)/(10*C) := by field_simp; ring
  have h25 : |10*x - b*C| ≤ 25 := abs_le.mpr ⟨hlb, hub⟩
  rw [hx, abs_div, abs_of_pos (by positivity : (0:ℚ) < 10*C)]
  have h1 : |10*x - b*C| / (10*C) ≤ 25 / (10*C) :=
    (div_le_div_right (by positivity)).mpr h25
  have h2 : (25 : ℚ) / (10*C) = 5/(2*C) := by
    rw [div_eq_div_iff (by positivity) (by positivity)]; ring
  linarith

/-- The rational-arithmetic core of the stratification tolerance: a
two-stage proportional allocation with per-stage floor error at most one
keeps every per-class train/val/test fraction within `5/(2*C)` of the
targets `4/5`, `1/10` and `1/10`.  `N` is the total count, `C` the class
count, `T1` the first-stage held-out size (the ceiling of `N/5`), `q1` the
floored first-stage share, `tr` the class's train allocation, `N' = T1`
the held-out size, `T2` the ceiling of `N'/2`, `q2` the floored
second-stage share, `val`/`te` the class's val and test allocations (both
zero when the class is absent from the held-out part). -/
theorem strat_arith (N C T1 q1 tr N' T2 q2 val te : ℚ)
    (hN : 1 ≤ N) (hC1 : 1 ≤ C) (hCN : C ≤ N)
    (hT1a : N ≤ 5*T1) (hT1b : 5*T1 ≤ N + 4) (hT1N : T1 ≤ N)
    (hq1a : q1*N ≤ C*(N - T1)) (hq1b : C*(N - T1) ≤ q1*N + N)
    (htra : q1 ≤ tr) (htrb : tr ≤ q1 + 1) (htrC : tr ≤ C)
    (hN' : N' = T1)
    (hT2a : N' ≤ 2*T2) (hT2b : 2*T2 ≤ N' + 1) (hT2N : T2 ≤ N')
    (hmN' : C - tr ≤ N')
    (hcase : (C - tr = 0 ∧ val = 0 ∧ te = 0) ∨
      (q2*N' ≤ (C - tr)*(N' - T2) ∧ (C - tr)*(N' - T2) ≤ q2*N' + N' ∧
       q2 ≤ val ∧ val ≤ q2 + 1 ∧ te = C - tr - val)) :
    |tr/C - 4/5| ≤ 5/(2*C) ∧ |val/C - 1/10| ≤ 5/(2*C) ∧
      |te/C - 1/10| ≤ 5/(2*C) := by
  have hN0 : (0:ℚ) < N := by linarith
  have hC0 : (0:ℚ) < C := by linarith
  have hT10 : (0:ℚ) < T1 := by linarith
  have hN'0 : (0:ℚ) < N' := by rw [hN']; exact hT10
  have hm0 : (0:ℚ) ≤ C - tr := by linarith
  have p1 : tr*N ≤ (q1+1)*N := mul_le_mul_of_nonneg_right htrb hN0.le
  have p2 : q1*N ≤ tr*N := mul_le_mul_of_nonneg_right htra hN0.le
  have p3 : C*N ≤ C*(5*T1) := mul_le_mul_of_nonneg_left hT1a hC0.le
  have p4 : C*(5*T1) ≤ C*(N+4) := mul_le_mul_of_nonneg_left hT1b hC0.le
  have htr_ub : 10*tr - 8*C ≤ 10 := by
    have hs : (10*tr - 8*C - 10)*N ≤ 0 := by linarith [p1, hq1a, p3]
    linarith [nonpos_of_scaled _ N hN0 hs]
  have htr_lb : -25 ≤ 10*tr - 8*C := by
    have hs : 0 ≤ (10*tr - 8*C + 25)*N := by linarith [p2, hq1b, p4]
    linarith [nonneg_of_scaled _ N hN0 hs]
  have goal1 : |tr/C - 4/5| ≤ 5/(2*C) := by
    have h := abs_frac_of_scaled tr 8 C hC0 htr_lb (by linarith)
    have h8 : (8:ℚ)/10 = 4/5 := by norm_num
    rw [h8] at h
    exact h
  have hm5_ub : 5*(C-tr) ≤ C + 9 := by
    have hs : (5*(C-tr) - C - 9)*N ≤ 0 := by linarith [p2, hq1b, p4]
    linarith [nonpos_of_scaled _ N hN0 hs]
  have hm5_lb : C - 5 ≤ 5*(C-tr) := by
    have hs : 0 ≤ (5*(C-tr) - C + 5)*N := by linarith [p1, hq1a, p3]
    linarith [nonneg_of_scaled _ N hN0 hs]
  rcases hcase with ⟨hm, hval, hte⟩ | ⟨hq2a, hq2b, hvala, hvalb, hte⟩
  · have hC5 : C ≤ 5 := by
      have hq1' : (C-1)*N ≤ q1*N :=
        mul_le_mul_of_nonneg_right (by linarith) hN0.le
      have hs : (C - 5)*N ≤ 0 := by linarith [hq1', hq1a, p3]
      linarith [nonpos_of_scaled _ N hN0 hs]
    refine ⟨goal1, ?_, ?_⟩
    · rw [hval]
      exact abs_frac_of_scaled 0 1 C hC0 (by linarith) (by linarith)
    · rw [hte]
      exact abs_frac_of_scaled 0 1 C hC0 (by linarith) (by linarith)
  · have r1 : val*N' ≤ (q2+1)*N' := mul_le_mul_of_nonneg_right hvalb hN'0.le
    have r2 : q2*N' ≤ val*N' := mul_le_mul_of_nonneg_right hvala hN'0.le
    have r3 : (C-tr)*N' ≤ (C-tr)*(2*T2) := mul_le_mul_of_nonneg_left hT2a hm0
    have r4 : (C-tr)*(2*T2) ≤ (C-tr)*(N'+1) :=
      mul_le_mul_of_nonneg_left hT2b hm0
    have r5 : (5*(C-tr))*N' ≤ (C+9)*N' :=
      mul_le_mul_of_nonneg_right hm5_ub hN'0.le
    have r6 : (C-5)*N' ≤ (5*(C-tr))*N' :=
      mul_le_mul_of_nonneg_right hm5_lb hN'0.le
    have r7 : te*N' = (C-tr-val)*N' := by rw [hte]
    have val_ub : 10*val - C ≤ 19 := by
      have hs : (10*val - C - 19)*N' ≤ 0 := by linarith [r1, hq2a, r3, r5]
      linarith [nonpos_of_scaled _ N' hN'0 hs]
    have val_lb : -20 ≤ 10*val - C := by
      have hs : 0 ≤ (10*val - C + 20)*N' := by
        linarith [r2, hq2b, r4, r6, hmN']
      linarith [nonneg_of_scaled _ N' hN'0 hs]
    have te_ub : 10*te - C ≤ 24 := by
      have hs : (10*te - C - 24)*N' ≤ 0 := by
        linarith [r2, hq2b, r4, r5, hmN', r7]
      linarith [nonpos_of_scaled _ N' hN'0 hs]
    have te_lb : -15 ≤ 10*te - C := by
      have hs : 0 ≤ (10*te - C + 15)*N' := by linarith [r1, hq2a, r3, r6, r7]
      linarith [nonneg_of_scaled _ N' hN'0 hs]
    exact ⟨goal1,
      abs_frac_of_scaled val 1 C hC0 (by linarith) (by linarith),
      abs_frac_of_scaled te 1 C hC0 (by linarith) (by linarith)⟩

/-- The natural-number layer of the stratification tolerance, stated with
the floor divisions the splitter actually computes: `ntest1 = ⌈n/5⌉` held
out, train allocation within one of the floored share
`nC*(n-ntest1)/n`, the held-out remainder split again with test size
`⌈n'/2⌉` and val allocation within one of its floored share. -/
theorem strat_arith_nat (n nC ntest1 trc tec n' vc tc : Nat)
    (hn : 1 ≤ n) (hnC : 1 ≤ nC) (hCn : nC ≤ n)
    (ht1 : ntest1 = (n + 4)/5) (ht1n : ntest1 ≤ n)
    (hq1a : nC * (n - ntest1) / n ≤ trc)
    (hq1b : trc ≤ nC * (n - ntest1) / n + 1)
    (htrc : trc + tec = nC)
    (hn' : n' = ntest1)
    (htecn' : tec ≤ n')
    (hcase : (tec = 0 ∧ vc = 0 ∧ tc = 0) ∨
      (tec * (n' - (n'+1)/2) / n' ≤ vc ∧
       vc ≤ tec * (n' - (n'+1)/2) / n' + 1 ∧ vc + tc = tec)) :
    |(trc:ℚ)/(nC:ℚ) - 4/5| ≤ 5/(2*(nC:ℚ)) ∧
    |(vc:ℚ)/(nC:ℚ) - 1/10| ≤ 5/(2*(nC:ℚ)) ∧
    |(tc:ℚ)/(nC:ℚ) - 1/10| ≤ 5/(2*(nC:ℚ)) := by
  have hn0 : 0 < n := hn
  have hn'1 : 1 ≤ n' := by omega
  have hd5 := Nat.div_add_mod (n + 4) 5
  have hm5 := Nat.mod_lt (n + 4) (by omega : 0 < 5)
  have h5a : n ≤ 5 * ntest1 := by omega
  have h5b : 5 * ntest1 ≤ n + 4 := by omega
  have hd2 := Nat.div_add_mod (n' + 1) 2
  have hm2 := Nat.mod_lt (n' + 1) (by omega : 0 < 2)
  have h2a : n' ≤ 2 * ((n'+1)/2) := by omega
  have h2b : 2 * ((n'+1)/2) ≤ n' + 1 := by omega
  have h2n : (n'+1)/2 ≤ n' := by omega
  have hq1na : (nC * (n - ntest1) / n) * n ≤ nC * (n - ntest1) :=
    Nat.div_mul_le_self _ _
  have hdm1 := Nat.div_add_mod (nC * (n - ntest1)) n
  have hmod1 := Nat.mod_lt (nC * (n - ntest1)) hn0
  have hq1nb : nC * (n - ntest1) ≤ (nC * (n - ntest1) / n) * n + n := by
    rw [Nat.mul_comm (nC * (n - ntest1) / n) n]
    omega
  have htrnC : trc ≤ nC := by omega
  have key := strat_arith (n:ℚ) (nC:ℚ) (ntest1:ℚ)
    ((nC * (n - ntest1) / n : Nat):ℚ)
    (trc:ℚ) (n':ℚ) (((n'+1)/2 : Nat):ℚ) ((tec * (n' - (n'+1)/2) / n' : Nat):ℚ)
    (vc:ℚ) (tc:ℚ)
    (by exact_mod_cast hn) (by exact_mod_cast hnC) (by exact_mod_cast hCn)
    (by exact_mod_cast h5a) (by exact_mod_cast h5b) (by exact_mod_cast ht1n)
    (by rw [show ((nC:ℚ)*((n:ℚ) - (ntest1:ℚ))) =
          ((nC * (n - ntest1) : Nat) : ℚ) from by
          push_cast [Nat.cast_sub ht1n]; ring]
        exact_mod_cast hq1na)
    (by rw [show ((nC:ℚ)*((n:ℚ) - (ntest1:ℚ))) =
          ((nC * (n - ntest1) : Nat) : ℚ) from by
          push_cast [Nat.cast_sub ht1n]; ring]
        exact_mod_cast hq1nb)
    (by exact_mod_cast hq1a) (by exact_mod_cast hq1b) (by exact_mod_cast htrnC)
    (by exact_mod_cast hn')
    (by exact_mod_cast h2a) (by exact_mod_cast h2b) (by exact_mod_cast h2n)
    (by rw [show ((nC:ℚ) - (trc:ℚ)) = ((tec : Nat) : ℚ) from by
          have : (nC:ℚ) = (trc:ℚ) + (tec:ℚ) := by exact_mod_cast htrc.symm
          linarith]
        exact_mod_cast htecn')
    ?_
  · exact key
  · have hCtr : ((nC:ℚ) - (trc:ℚ)) = ((tec : Nat) : ℚ) := by
      have : (nC:ℚ) = (trc:ℚ) + (tec:ℚ) := by exact_mod_cast htrc.symm
      linarith
    rcases hcase with ⟨h0, hv, ht⟩ | ⟨hva, hvb, hvt⟩
    · left
      refine ⟨by rw [hCtr]; exact_mod_cast h0, by exact_mod_cast hv,
        by exact_mod_cast ht⟩
    · right
      have hq2na : (tec * (n' - (n'+1)/2) / n') * n' ≤
          tec * (n' - (n'+1)/2) :=
        Nat.div_mul_le_self _ _
      have hdm2 := Nat.div_add_mod (tec * (n' - (n'+1)/2)) n'
      have hmod2 := Nat.mod_lt (tec * (n' - (n'+1)/2)) (by omega : 0 < n')
      have hq2nb : tec * (n' - (n'+1)/2) ≤
          (tec * (n' - (n'+1)/2) / n') * n' + n' := by
        rw [Nat.mul_comm (tec * (n' - (n'+1)/2) / n') n']
        omega
      have hR2 : ((tec:ℚ))*((n':ℚ) - (((n'+1)/2 : Nat):ℚ)) =
          ((tec * (n' - (n'+1)/2) : Nat) : ℚ) := by
        push_cast [Nat.cast_sub h2n]; ring
      refine ⟨?_, ?_, by exact_mod_cast hva, by exact_mod_cast hvb, ?_⟩
      · rw [hCtr, hR2]; exact_mod_cast hq2na
      · rw [hCtr, hR2]; exact_mod_cast hq2nb
      · rw [hCtr]
        have : (tec:ℚ) = (vc:ℚ) + (tc:ℚ) := by exact_mod_cast hvt.symm
        linarith

/-- Summing an indicator-style map over `range K` picks out the single
position `k`. -/
theorem sum_map_range_single (K k : Nat) (hk : k < K) (f : Nat → Nat) :
    ((List.range K).map (fun j => if j = k then f j else 0)).sum = f k := by
  induction K with
  | zero => omega
  | succ n ih =>
    rw [List.range_succ, List.map_append, List.sum_append]
    by_cases hkn : k < n
    · rw [ih hkn]
      simp only [List.map_cons, List.map_nil]
      rw [if_neg (by omega : ¬(n = k))]
      simp
    · have hk' : k = n := by omega
      subst hk'
      have hz : ((List.range k).map
          (fun j => if j = k then f j else 0)).sum = 0 := by
        apply List.sum_eq_zero
        intro x hx
        rw [List.mem_map] at hx
        obtain ⟨j, hj, hxe⟩ := hx
        rw [List.mem_range] at hj
        rw [← hxe, if_neg (by omega)]
      rw [hz]
      simp

/-- Reading positions out of `X` and then applying `g` is reading the same
positions out of `X.map g`, for in-range positions. -/
theorem map_getD_positions (X : List Nat) (g : Nat → Nat) (pos : List Nat)
    (hmem : ∀ i ∈ pos, i < X.length) :
    (pos.map (fun i => X.getD i 0)).map g =
      pos.map (fun i => (X.map g).getD i 0) := by
  rw [List.map_map]
  apply List.map_congr_left
  intro i hi
  have h1 : i < X.length := hmem i hi
  have h2 : i < (X.map g).length := by rw [List.length_map]; exact h1
  show g (X.getD i 0) = (X.map g).getD i 0
  rw [List.getD_eq_getElem _ _ h1, List.getD_eq_getElem _ _ h2,
    List.getElem_map]

/-- Reading in-range positions out of `List.range n` is the identity. -/
theorem map_range_getD_id (n : Nat) (pos : List Nat)
    (hmem : ∀ i ∈ pos, i < n) :
    pos.map (fun i => (List.range n).getD i 0) = pos := by
  conv_rhs => rw [← List.map_id pos]
  apply List.map_congr_left
  intro i hi
  have h1 : i < (List.range n).length := by
    rw [List.length_range]; exact hmem i hi
  show (List.range n).getD i 0 = i
  rw [List.getD_eq_getElem _ _ h1, List.getElem_range]

/-- Every chosen train or test position is an in-range position of `y`. -/
theorem split_positions_mem_lt (y : List Nat) (p : ℚ)
    (rng : Nat → Nat → List Nat) (hrng : ValidRng rng) (hne : y ≠ [])
    (hts : n_test_of p y.length ≤ y.length) :
    (∀ i ∈ split_train_positions y p rng, i < y.length) ∧
    (∀ i ∈ split_test_positions y p rng, i < y.length) := by
  have h := (split_positions_perm y p rng hrng hne hts).1
  constructor
  · intro i hi
    exact List.mem_range.mp (h.mem_iff.mp (List.mem_append_left _ hi))
  · intro i hi
    exact List.mem_range.mp (h.mem_iff.mp (List.mem_append_right _ hi))

/-- The position of a present class value in the sorted class list, with
the class value and class count it indexes. -/
theorem classCounts_getD_indexOf (y : List Nat) (c : Nat) (hc : c ∈ y) :
    (classesOf y).indexOf c < (classesOf y).length ∧
    (classesOf y).getD ((classesOf y).indexOf c) 0 = c ∧
    (classCounts y).getD ((classesOf y).indexOf c) 0 = y.count c := by
  have hmem : c ∈ classesOf y := mem_classesOf hc
  have hlt : (classesOf y).indexOf c < (classesOf y).length :=
    List.indexOf_lt_length.mpr hmem
  refine ⟨hlt, ?_, ?_⟩
  · rw [List.getD_eq_getElem _ _ hlt]
    exact List.getElem_indexOf hlt
  · have hlt2 : (classesOf y).indexOf c < (classCounts y).length := by
      unfold classCounts
      rw [List.length_map]
      exact hlt
    rw [List.getD_eq_getElem _ _ hlt2]
    unfold classCounts
    rw [List.getElem_map, List.getElem_indexOf hlt]

/-- The first-stage held-out size concretely: `⌈n/5⌉ = (n+4)/5`. -/
theorem n_test_of_one_fifth (n : Nat) : n_test_of one_fifth n = (n + 4)/5 := by
  unfold n_test_of
  show (((1:Int) * (n:Int) + ((5:Nat):Int) - 1).ediv ((5:Nat):Int)).toNat =
    (n + 4)/5
  have h1 : (1 : Int) * (n:Int) + ((5:Nat):Int) - 1 = ((n + 4 : Nat) : Int) := by
    push_cast; ring
  rw [h1, show ((n+4:Nat):Int).ediv ((5:Nat):Int) =
      ((n+4:Nat):Int) / ((5:Nat):Int) from rfl,
    ← Int.ofNat_ediv, Int.toNat_ofNat]

/-- The second-stage test size concretely: `⌈n/2⌉ = (n+1)/2`. -/
theorem n_test_of_one_half (n : Nat) : n_test_of one_half n = (n + 1)/2 := by
  unfold n_test_of
  show (((1:Int) * (n:Int) + ((2:Nat):Int) - 1).ediv ((2:Nat):Int)).toNat =
    (n + 1)/2
  have h1 : (1 : Int) * (n:Int) + ((2:Nat):Int) - 1 = ((n + 1 : Nat) : Int) := by
    push_cast; ring
  rw [h1, show ((n+1:Nat):Int).ediv ((2:Nat):Int) =
      ((n+1:Nat):Int) / ((2:Nat):Int) from rfl,
    ← Int.ofNat_ediv, Int.toNat_ofNat]

/-- Inverting a successful `train_test_split`: the input lengths agree,
the request was feasible, and the two returned halves are the shuffled
position picks read out of `X`. -/
theorem train_test_split_ok_inv {X y : List Nat} {p : ℚ}
    {rng : Nat → Nat → List Nat} {tr te : List Nat}
    (h : train_test_split X y p rng = .ok (tr, te)) :
    X.length = y.length ∧ y ≠ [] ∧ n_test_of p y.length ≤ y.length ∧
    tr = (split_train_positions y p rng).map (fun i => X.getD i 0) ∧
    te = (split_test_positions y p rng).map (fun i => X.getD i 0) := by
  unfold train_test_split at h
  split at h
  · simp at h
  · split at h
    · simp at h
    · split at h
      · simp at h
      · split at h
        · simp at h
        · split at h
          · simp at h
          · rename_i hlen hntr hany hk1 hk2
            injection h with h
            injection h with h1 h2
            push_neg at hlen
            have hntr' : n_train_of p y.length ≠ 0 := by
              rw [← hlen]
              exact hntr
            have hts : n_test_of p y.length ≤ y.length := by
              unfold n_train_of at hntr'
              omega
            have hne : y ≠ [] := by
              intro hy
              apply hntr'
              rw [hy]
              unfold n_train_of
              simp
            exact ⟨hlen, hne, hts, h1.symm, h2.symm⟩

/-- The two sides of a feasible split have exactly `n_train` and `n_test`
positions. -/
theorem split_positions_length (y : List Nat) (p : ℚ)
    (rng : Nat → Nat → List Nat) (hrng : ValidRng rng) (hne : y ≠ [])
    (hts : n_test_of p y.length ≤ y.length) :
    (split_train_positions y p rng).length = n_train_of p y.length ∧
    (split_test_positions y p rng).length = n_test_of p y.length := by
  have hcne : classCounts y ≠ [] := by
    unfold classCounts
    intro hmapnil
    obtain ⟨a, ha⟩ := List.exists_mem_of_ne_nil y hne
    have hmem : a ∈ classesOf y := mem_classesOf ha
    rw [List.map_eq_nil] at hmapnil
    rw [hmapnil] at hmem
    cases hmem
  have hsum : (classCounts y).sum = y.length := classCounts_sum y
  have hklen : (classCounts y).length = (classesOf y).length := by
    unfold classCounts
    rw [List.length_map]
  have hntr_le : n_train_of p y.length ≤ (classCounts y).sum := by
    rw [hsum]
    exact Nat.sub_le _ _
  have hni_sum : (n_i_of y p).sum = n_train_of p y.length :=
    approximate_mode_sum _ _ hntr_le hcne
  have hni_len : (n_i_of y p).length = (classCounts y).length :=
    approximate_mode_length _ _
  have hni_le : ∀ i, (n_i_of y p).getD i 0 ≤ (classCounts y).getD i 0 := by
    intro i
    by_cases hi : i < (classCounts y).length
    · exact approximate_mode_le _ _ hntr_le hi
    · push_neg at hi
      rw [List.getD_eq_default _ _ (by omega : (classCounts y).length ≤ i),
          List.getD_eq_default _ _ (by rw [hni_len]; omega)]
  have hrem := sum_zipWith_sub (classCounts y) (n_i_of y p) hni_len hni_le
  have hrem_sum : ((classCounts y).zipWith (· - ·) (n_i_of y p)).sum =
      n_test_of p y.length := by
    rw [hrem.1, hni_sum, hsum]
    unfold n_train_of
    omega
  have ht_i : t_i_of y p = (classCounts y).zipWith (· - ·) (n_i_of y p) := by
    unfold t_i_of
    rw [show n_test_of p y.length =
      ((classCounts y).zipWith (· - ·) (n_i_of y p)).sum from hrem_sum.symm]
    exact approximate_mode_total _
  have hcount : ∀ j, j < (classesOf y).length →
      (classIndices y ((classesOf y).getD j 0)).length =
        (classCounts y).getD j 0 := by
    intro j hj
    rw [classIndices_length]
    have hj' : j < (classCounts y).length := by rw [hklen]; exact hj
    rw [List.getD_eq_getElem _ _ hj']
    unfold classCounts
    rw [List.getElem_map, ← List.getD_eq_getElem _ _ hj]
  have hcplen : ∀ j, j < (classesOf y).length →
      (class_perm y rng j).length = (classCounts y).getD j 0 := by
    intro j hj
    have hcp : (class_perm y rng j).Perm
        (classIndices y ((classesOf y).getD j 0)) :=
      applyPerm_perm _ _ (hrng j _)
    rw [hcp.length_eq, hcount j hj]
  have htplen : ∀ j, j < (classesOf y).length →
      (trainPart y p rng j).length = (n_i_of y p).getD j 0 := by
    intro j hj
    unfold trainPart
    rw [List.length_take, hcplen j hj]
    exact Nat.min_eq_left (hni_le j)
  have htslen : ∀ j, j < (classesOf y).length →
      (testPart y p rng j).length = (t_i_of y p).getD j 0 := by
    intro j hj
    unfold testPart
    rw [List.length_take, List.length_drop, hcplen j hj]
    have hj' : j < (classCounts y).length := by rw [hklen]; exact hj
    have hti : (t_i_of y p).getD j 0 =
        (classCounts y).getD j 0 - (n_i_of y p).getD j 0 := by
      rw [ht_i]
      have hkz : j < ((classCounts y).zipWith (· - ·) (n_i_of y p)).length := by
        rw [List.length_zipWith, hni_len]
        omega
      rw [List.getD_eq_getElem _ _ hkz, List.getElem_zipWith,
          ← List.getD_eq_getElem (classCounts y) 0 hj',
          ← List.getD_eq_getElem (n_i_of y p) 0 (by rw [hni_len]; exact hj')]
    rw [hti]
    exact Nat.min_self _
  constructor
  · unfold split_train_positions
    rw [(applyPerm_perm _ _ (hrng _ _)).length_eq, List.length_flatten,
      List.map_map]
    have hcg : (List.range (classesOf y).length).map
        (List.length ∘ trainPart y p rng) =
        (List.range (classesOf y).length).map
          (fun j => (n_i_of y p).getD j 0) := by
      apply List.map_congr_left
      intro j hj
      rw [List.mem_range] at hj
      exact htplen j hj
    rw [hcg]
    have hlen : (n_i_of y p).length = (classesOf y).length := by
      rw [hni_len, hklen]
    rw [← hlen, getD_map_range (n_i_of y p) 0]
    exact hni_sum
  · unfold split_test_positions
    rw [(applyPerm_perm _ _ (hrng _ _)).length_eq, List.length_flatten,
      List.map_map]
    have hcg : (List.range (classesOf y).length).map
        (List.length ∘ testPart y p rng) =
        (List.range (classesOf y).length).map
          (fun j => (t_i_of y p).getD j 0) := by
      apply List.map_congr_left
      intro j hj
      rw [List.mem_range] at hj
      exact htslen j hj
    rw [hcg]
    have hlen : (t_i_of y p).length = (classesOf y).length := by
      rw [ht_i, List.length_zipWith, hni_len, Nat.min_self, hklen]
    rw [← hlen, getD_map_range (t_i_of y p) 0, ht_i]
    exact hrem_sum

/-- Reading the labels of a feasible split's position picks: the `k`-th
class contributes exactly its `n_i[k]` train draws and `t_i[k]` test
draws. -/
theorem split_positions_count (y : List Nat) (p : ℚ)
    (rng : Nat → Nat → List Nat) (hrng : ValidRng rng) (hne : y ≠ [])
    (hts : n_test_of p y.length ≤ y.length) (k : Nat)
    (hk : k < (classesOf y).length) :
    ((split_train_positions y p rng).map (fun i => y.getD i 0)).count
        ((classesOf y).getD k 0) = (n_i_of y p).getD k 0 ∧
    ((split_test_positions y p rng).map (fun i => y.getD i 0)).count
        ((classesOf y).getD k 0) = (t_i_of y p).getD k 0 := by
  have hcne : classCounts y ≠ [] := by
    unfold classCounts
    intro hmapnil
    obtain ⟨a, ha⟩ := List.exists_mem_of_ne_nil y hne
    have hmem : a ∈ classesOf y := mem_classesOf ha
    rw [List.map_eq_nil] at hmapnil
    rw [hmapnil] at hmem
    cases hmem
  have hsum : (classCounts y).sum = y.length := classCounts_sum y
  have hklen : (classCounts y).length = (classesOf y).length := by
    unfold classCounts
    rw [List.length_map]
  have hntr_le : n_train_of p y.length ≤ (classCounts y).sum := by
    rw [hsum]
    exact Nat.sub_le _ _
  have hni_sum : (n_i_of y p).sum = n_train_of p y.length :=
    approximate_mode_sum _ _ hntr_le hcne
  have hni_len : (n_i_of y p).length = (classCounts y).length :=
    approximate_mode_length _ _
  have hni_le : ∀ i, (n_i_of y p).getD i 0 ≤ (classCounts y).getD i 0 := by
    intro i
    by_cases hi : i < (classCounts y).length
    · exact approximate_mode_le _ _ hntr_le hi
    · push_neg at hi
      rw [List.getD_eq_default _ _ (by omega : (classCounts y).length ≤ i),
          List.getD_eq_default _ _ (by rw [hni_len]; omega)]
  have hrem := sum_zipWith_sub (classCounts y) (n_i_of y p) hni_len hni_le
  have hrem_sum : ((classCounts y).zipWith (· - ·) (n_i_of y p)).sum =
      n_test_of p y.length := by
    rw [hrem.1, hni_sum, hsum]
    unfold n_train_of
    omega
  have ht_i : t_i_of y p = (classCounts y).zipWith (· - ·) (n_i_of y p) := by
    unfold t_i_of
    rw [show n_test_of p y.length =
      ((classCounts y).zipWith (· - ·) (n_i_of y p)).sum from hrem_sum.symm]
    exact approximate_mode_total _
  have hcount : ∀ j, j < (classesOf y).length →
      (classIndices y ((classesOf y).getD j 0)).length =
        (classCounts y).getD j 0 := by
    intro j hj
    rw [classIndices_length]
    have hj' : j < (classCounts y).length := by rw [hklen]; exact hj
    rw [List.getD_eq_getElem _ _ hj']
    unfold classCounts
    rw [List.getElem_map, ← List.getD_eq_getElem _ _ hj]
  have hcplen : ∀ j, j < (classesOf y).length →
      (class_perm y rng j).length = (classCounts y).getD j 0 := by
    intro j hj
    have hcp : (class_perm y rng j).Perm
        (classIndices y ((classesOf y).getD j 0)) :=
      applyPerm_perm _ _ (hrng j _)
    rw [hcp.length_eq, hcount j hj]
  have htplen : ∀ j, j < (classesOf y).length →
      (trainPart y p rng j).length = (n_i_of y p).getD j 0 := by
    intro j hj
    unfold trainPart
    rw [List.length_take, hcplen j hj]
    exact Nat.min_eq_left (hni_le j)
  have htslen : ∀ j, j < (classesOf y).length →
      (testPart y p rng j).length = (t_i_of y p).getD j 0 := by
    intro j hj
    unfold testPart
    rw [List.length_take, List.length_drop, hcplen j hj]
    have hj' : j < (classCounts y).length := by rw [hklen]; exact hj
    have hti : (t_i_of y p).getD j 0 =
        (classCounts y).getD j 0 - (n_i_of y p).getD j 0 := by
      rw [ht_i]
      have hkz : j < ((classCounts y).zipWith (· - ·) (n_i_of y p)).length := by
        rw [List.length_zipWith, hni_len]
        omega
      rw [List.getD_eq_getElem _ _ hkz, List.getElem_zipWith,
          ← List.getD_eq_getElem (classCounts y) 0 hj',
          ← List.getD_eq_getElem (n_i_of y p) 0 (by rw [hni_len]; exact hj')]
    rw [hti]
    exact Nat.min_self _
  have hlab : ∀ j, j < (classesOf y).length → ∀ x ∈ class_perm y rng j,
      y.getD x 0 = (classesOf y).getD j 0 := by
    intro j hj x hx
    have hx' : x ∈ classIndices y ((classesOf y).getD j 0) :=
      (applyPerm_perm _ _ (hrng j _)).mem_iff.mp hx
    exact ((classIndices_mem y _).mp hx').2
  have hinj : ∀ j, j < (classesOf y).length → j ≠ k →
      (classesOf y).getD j 0 ≠ (classesOf y).getD k 0 := by
    intro j hj hjk he
    apply hjk
    rw [List.getD_eq_getElem _ _ hj, List.getD_eq_getElem _ _ hk] at he
    exact (List.Nodup.getElem_inj_iff (classesOf_nodup y)).mp he
  constructor
  · have hp : (split_train_positions y p rng).Perm
        (((List.range (classesOf y).length).map (trainPart y p rng)).flatten) := by
      unfold split_train_positions
      exact applyPerm_perm _ _ (hrng _ _)
    rw [(hp.map (fun i => y.getD i 0)).count_eq, List.map_flatten,
      List.map_map, List.count_flatten, List.map_map]
    have hcg : (List.range (classesOf y).length).map
        (List.count ((classesOf y).getD k 0) ∘ List.map (fun i => y.getD i 0) ∘
          trainPart y p rng) =
        (List.range (classesOf y).length).map
          (fun j => if j = k then (n_i_of y p).getD j 0 else 0) := by
      apply List.map_congr_left
      intro j hj
      rw [List.mem_range] at hj
      show ((trainPart y p rng j).map (fun i => y.getD i 0)).count
        ((classesOf y).getD k 0) = _
      have hrep : (trainPart y p rng j).map (fun i => y.getD i 0) =
          List.replicate ((trainPart y p rng j).map
            (fun i => y.getD i 0)).length ((classesOf y).getD j 0) := by
        apply List.eq_replicate_of_mem
        intro b hb
        rw [List.mem_map] at hb
        obtain ⟨x, hxmem, hxe⟩ := hb
        rw [← hxe]
        exact hlab j hj x (List.mem_of_mem_take hxmem)
      rw [hrep, List.count_replicate, List.length_map, htplen j hj]
      by_cases hjk : j = k
      · subst hjk
        rw [if_pos (by simp), if_pos rfl]
      · rw [if_neg (by simpa using hinj j hj hjk), if_neg hjk]
    rw [hcg, sum_map_range_single _ k hk]
  · have hp : (split_test_positions y p rng).Perm
        (((List.range (classesOf y).length).map (testPart y p rng)).flatten) := by
      unfold split_test_positions
      exact applyPerm_perm _ _ (hrng _ _)
    rw [(hp.map (fun i => y.getD i 0)).count_eq, List.map_flatten,
      List.map_map, List.count_flatten, List.map_map]
    have hcg : (List.range (classesOf y).length).map
        (List.count ((classesOf y).getD k 0) ∘ List.map (fun i => y.getD i 0) ∘
          testPart y p rng) =
        (List.range (classesOf y).length).map
          (fun j => if j = k then (t_i_of y p).getD j 0 else 0) := by
      apply List.map_congr_left
      intro j hj
      rw [List.mem_range] at hj
      show ((testPart y p rng j).map (fun i => y.getD i 0)).count
        ((classesOf y).getD k 0) = _
      have hrep : (testPart y p rng j).map (fun i => y.getD i 0) =
          List.replicate ((testPart y p rng j).map
            (fun i => y.getD i 0)).length ((classesOf y).getD j 0) := by
        apply List.eq_replicate_of_mem
        intro b hb
        rw [List.mem_map] at hb
        obtain ⟨x, hxmem, hxe⟩ := hb
        rw [← hxe]
        exact hlab j hj x
          (List.mem_of_mem_drop (List.mem_of_mem_take hxmem))
      rw [hrep, List.count_replicate, List.length_map, htslen j hj]
      by_cases hjk : j = k
      · subst hjk
        rw [if_pos (by simp), if_pos rfl]
      · rw [if_neg (by simpa using hinj j hj hjk), if_neg hjk]
    rw [hcg, sum_map_range_single _ k hk]

/-- C4 (amended tolerance): for every successful run of
`create_dataloaders` over a valid permutation-stream family and every
class value `c` present in the filtered targets, the fraction of the
positions of `c` assigned to train, val and test differs from the
respective target fraction (`4/5`, `1/10`, `1/10`) by at most
`5/(2*n_c)`, where `n_c` is the number of filtered samples of class `c`
(the spec's claimed tolerance `1/n_c` is too tight; see the
counterexample). -/
theorem C4_stratified_fractions (rs : Nat → Nat → Nat → List Nat)
    (dE : Bool) (ds : ImageFolder) (t1 t2 t3 : Image → Image) (bs nw : Nat)
    (out : CreateDataloadersResult) (c : Nat) (hrs : ∀ s, ValidRng (rs s))
    (h : create_dataloaders rs dE ds t1 t2 t3 bs nw = .ok out)
    (hc : c ∈ (FilteredDataset.init ds class_names).targets) :
    |((out.train_dataset.subset.indices.map (fun i =>
        (FilteredDataset.init ds class_names).targets.getD i 0)).count c : ℚ) /
        ((FilteredDataset.init ds class_names).targets.count c : ℚ) - 4/5| ≤
      5 / (2 * ((FilteredDataset.init ds class_names).targets.count c : ℚ)) ∧
    |((out.val_dataset.subset.indices.map (fun i =>
        (FilteredDataset.init ds class_names).targets.getD i 0)).count c : ℚ) /
        ((FilteredDataset.init ds class_names).targets.count c : ℚ) - 1/10| ≤
      5 / (2 * ((FilteredDataset.init ds class_names).targets.count c : ℚ)) ∧
    |((out.test_dataset.subset.indices.map (fun i =>
        (FilteredDataset.init ds class_names).targets.getD i 0)).count c : ℚ) /
        ((FilteredDataset.init ds class_names).targets.count c : ℚ) - 1/10| ≤
      5 / (2 * ((FilteredDataset.init ds class_names).targets.count c : ℚ)) := by
  unfold create_dataloaders at h
  split at h
  · simp at h
  · split at h
    · simp at h
    · next train_idx temp_idx heq1 =>
      split at h
      · simp at h
      · next val_idx test_idx heq2 =>
        injection h with h
        cases h
        simp only [build_result]
        set tgt := (FilteredDataset.init ds class_names).targets with htgt
        obtain ⟨hlen1, hne1, hts1, htr1, hte1⟩ := train_test_split_ok_inv heq1
        rw [List.length_range] at hlen1
        have hmem1 := split_positions_mem_lt tgt one_fifth (rs 42) (hrs 42)
          hne1 hts1
        have htr1' : train_idx = split_train_positions tgt one_fifth (rs 42) := by
          rw [htr1]
          apply map_range_getD_id
          intro i hi
          rw [hlen1]
          exact hmem1.1 i hi
        have htmp' : temp_idx = split_test_positions tgt one_fifth (rs 42) := by
          rw [hte1]
          apply map_range_getD_id
          intro i hi
          rw [hlen1]
          exact hmem1.2 i hi
        obtain ⟨hk, hgk, hck⟩ := classCounts_getD_indexOf tgt c hc
        obtain ⟨hcnt_tr, hcnt_te⟩ := split_positions_count tgt one_fifth
          (rs 42) (hrs 42) hne1 hts1 _ hk
        rw [hgk] at hcnt_tr hcnt_te
        obtain ⟨hlen_tr, hlen_te⟩ := split_positions_length tgt one_fifth
          (rs 42) (hrs 42) hne1 hts1
        have hsplit1 := (split_positions_perm tgt one_fifth (rs 42) (hrs 42)
          hne1 hts1).2 _ hk
        rw [hck] at hsplit1
        have hklen1 : (classesOf tgt).indexOf c < (classCounts tgt).length := by
          unfold classCounts
          rw [List.length_map]
          exact hk
        have hb1 := approximate_mode_bounds (classCounts tgt)
          (n_train_of one_fifth tgt.length) hklen1
        have hni_eq : approximate_mode (classCounts tgt)
            (n_train_of one_fifth tgt.length) = n_i_of tgt one_fifth := rfl
        have hntr_eq : n_train_of one_fifth tgt.length =
            tgt.length - n_test_of one_fifth tgt.length := rfl
        rw [hni_eq, hck, classCounts_sum, hntr_eq] at hb1
        set y2 := temp_idx.map (fun i => tgt.getD i 0) with hy2
        have hy2cnt : y2.count c =
            (t_i_of tgt one_fifth).getD ((classesOf tgt).indexOf c) 0 := by
          rw [hy2, htmp']
          exact hcnt_te
        have hy2len : y2.length = n_test_of one_fifth tgt.length := by
          rw [hy2, List.length_map, htmp']
          exact hlen_te
        obtain ⟨hlen2, hne2, hts2, hval2, hte2⟩ := train_test_split_ok_inv heq2
        have hmem2 := split_positions_mem_lt y2 one_half (rs 42) (hrs 42)
          hne2 hts2
        have hlentmp : y2.length = temp_idx.length := by
          rw [hy2, List.length_map]
        have hpos2 : ∀ i ∈ split_train_positions y2 one_half (rs 42),
            i < temp_idx.length := by
          intro i hi
          have hlt := hmem2.1 i hi
          rw [hlentmp] at hlt
          exact hlt
        have hpos2t : ∀ i ∈ split_test_positions y2 one_half (rs 42),
            i < temp_idx.length := by
          intro i hi
          have hlt := hmem2.2 i hi
          rw [hlentmp] at hlt
          exact hlt
        have hvlab : val_idx.map (fun i => tgt.getD i 0) =
            (split_train_positions y2 one_half (rs 42)).map
              (fun i => y2.getD i 0) := by
          rw [hval2, map_getD_positions temp_idx (fun i => tgt.getD i 0) _
            hpos2, ← hy2]
        have htlab : test_idx.map (fun i => tgt.getD i 0) =
            (split_test_positions y2 one_half (rs 42)).map
              (fun i => y2.getD i 0) := by
          rw [hte2, map_getD_positions temp_idx (fun i => tgt.getD i 0) _
            hpos2t, ← hy2]
        have e1 : (train_idx.map (fun i => tgt.getD i 0)).count c =
            (n_i_of tgt one_fifth).getD ((classesOf tgt).indexOf c) 0 := by
          rw [htr1']
          exact hcnt_tr
        have hn : 1 ≤ tgt.length := List.length_pos.mpr hne1
        have hnC : 1 ≤ tgt.count c := List.count_pos_iff.mpr hc
        have htecn : (t_i_of tgt one_fifth).getD
            ((classesOf tgt).indexOf c) 0 ≤ y2.length := by
          rw [← hy2cnt]
          exact List.count_le_length c y2
        by_cases hm : (t_i_of tgt one_fifth).getD
            ((classesOf tgt).indexOf c) 0 = 0
        · have hcny2 : c ∉ y2 := List.count_eq_zero.mp (by rw [hy2cnt]; exact hm)
          have e2 : (val_idx.map (fun i => tgt.getD i 0)).count c = 0 := by
            rw [hvlab]
            apply List.count_eq_zero.mpr
            intro hmm
            rw [List.mem_map] at hmm
            obtain ⟨pos, hpos, hpe⟩ := hmm
            apply hcny2
            rw [← hpe]
            have hlt := hmem2.1 pos hpos
            rw [List.getD_eq_getElem _ _ hlt]
            exact List.getElem_mem hlt
          have e3 : (test_idx.map (fun i => tgt.getD i 0)).count c = 0 := by
            rw [htlab]
            apply List.count_eq_zero.mpr
            intro hmm
            rw [List.mem_map] at hmm
            obtain ⟨pos, hpos, hpe⟩ := hmm
            apply hcny2
            rw [← hpe]
            have hlt := hmem2.2 pos hpos
            rw [List.getD_eq_getElem _ _ hlt]
            exact List.getElem_mem hlt
          rw [e1, e2, e3]
          exact strat_arith_nat tgt.length (tgt.count c)
            (n_test_of one_fifth tgt.length)
            ((n_i_of tgt one_fifth).getD ((classesOf tgt).indexOf c) 0)
            ((t_i_of tgt one_fifth).getD ((classesOf tgt).indexOf c) 0)
            y2.length 0 0
            hn hnC (List.count_le_length c tgt)
            (n_test_of_one_fifth tgt.length) hts1
            hb1.1 hb1.2 hsplit1 hy2len htecn
            (Or.inl ⟨hm, rfl, rfl⟩)
        · have hcy2 : c ∈ y2 := List.count_pos_iff.mp (by rw [hy2cnt]; omega)
          obtain ⟨hk2, hgk2, hck2⟩ := classCounts_getD_indexOf y2 c hcy2
          obtain ⟨hcnt2_tr, hcnt2_te⟩ := split_positions_count y2 one_half
            (rs 42) (hrs 42) hne2 hts2 _ hk2
          rw [hgk2] at hcnt2_tr hcnt2_te
          have hsplit2 := (split_positions_perm y2 one_half (rs 42) (hrs 42)
            hne2 hts2).2 _ hk2
          rw [hck2] at hsplit2
          have hklen2 : (classesOf y2).indexOf c < (classCounts y2).length := by
            unfold classCounts
            rw [List.length_map]
            exact hk2
          have hb2 := approximate_mode_bounds (classCounts y2)
            (n_train_of one_half y2.length) hklen2
          have hni2_eq : approximate_mode (classCounts y2)
              (n_train_of one_half y2.length) = n_i_of y2 one_half := rfl
          have hntr2_eq : n_train_of one_half y2.length =
              y2.length - n_test_of one_half y2.length := rfl
          rw [hni2_eq, hck2, classCounts_sum, hntr2_eq,
            n_test_of_one_half] at hb2
          rw [hy2cnt] at hb2 hsplit2
          have e2 : (val_idx.map (fun i => tgt.getD i 0)).count c =
              (n_i_of y2 one_half).getD ((classesOf y2).indexOf c) 0 := by
            rw [hvlab]
            exact hcnt2_tr
          have e3 : (test_idx.map (fun i => tgt.getD i 0)).count c =
              (t_i_of y2 one_half).getD ((classesOf y2).indexOf c) 0 := by
            rw [htlab]
            exact hcnt2_te
          rw [e1, e2, e3]
          exact strat_arith_nat tgt.length (tgt.count c)
            (n_test_of one_fifth tgt.length)
            ((n_i_of tgt one_fifth).getD ((classesOf tgt).indexOf c) 0)
            ((t_i_of tgt one_fifth).getD ((classesOf tgt).indexOf c) 0)
            y2.length
            ((n_i_of y2 one_half).getD ((classesOf y2).indexOf c) 0)
            ((t_i_of y2 one_half).getD ((classesOf y2).indexOf c) 0)
            hn hnC (List.count_le_length c tgt)
            (n_test_of_one_fifth tgt.length) hts1
            hb1.1 hb1.2 hsplit1 hy2len htecn
            (Or.inr ⟨hb2.1, hb2.2, hsplit2⟩)

/-- C4 witness: the tolerance facts at the concrete balanced corpus for
class value `0` (basophil). -/
theorem C4_witness :
    0 ∈ (FilteredDataset.init demo_balanced class_names).targets ∧
    (|((demo_created.train_dataset.subset.indices.map (fun i =>
        (FilteredDataset.init demo_balanced class_names).targets.getD
          i 0)).count 0 : ℚ) /
        ((FilteredDataset.init demo_balanced class_names).targets.count 0 : ℚ)
        - 4/5| ≤
      5 / (2 * ((FilteredDataset.init demo_balanced
        class_names).targets.count 0 : ℚ)) ∧
    |((demo_created.val_dataset.subset.indices.map (fun i =>
        (FilteredDataset.init demo_balanced class_names).targets.getD
          i 0)).count 0 : ℚ) /
        ((FilteredDataset.init demo_balanced class_names).targets.count 0 : ℚ)
        - 1/10| ≤
      5 / (2 * ((FilteredDataset.init demo_balanced
        class_names).targets.count 0 : ℚ)) ∧
    |((demo_created.test_dataset.subset.indices.map (fun i =>
        (FilteredDataset.init demo_balanced class_names).targets.getD
          i 0)).count 0 : ℚ) /
        ((FilteredDataset.init demo_balanced class_names).targets.count 0 : ℚ)
        - 1/10| ≤
      5 / (2 * ((FilteredDataset.init demo_balanced
        class_names).targets.count 0 : ℚ))) :=
  ⟨by decide, C4_stratified_fractions idRandomState true demo_balanced
    id id id 16 4 demo_created 0 idRandomState_valid demo_balanced_create
    (by decide)⟩

/-- A strongly imbalanced demonstration corpus: two basophils and nineteen
platelets. -/
def demo_imb : ImageFolder :=
  ⟨["basophil", "platelet"],
   List.replicate 2 ("b", 0) ++ List.replicate 19 ("p", 1)⟩

set_option maxRecDepth 4000 in
/-- The first (train vs. val+test) split of the imbalanced corpus,
evaluated concretely: 16 train positions (2 basophils + 14 platelets) and
5 held-out positions (all platelets). -/
theorem demo_imb_split1 :
    train_test_split
      (List.range (FilteredDataset.init demo_imb class_names).length)
      (FilteredDataset.init demo_imb class_names).targets one_fifth
      (idRandomState 42) =
    .ok ([0, 1, 2, 3, 4, 5, 6, 7, 8, 9, 10, 11, 12, 13, 14, 15],
         [16, 17, 18, 19, 20]) := by decide

/-- The pipeline output on the imbalanced demonstration corpus. -/
def demo_imb_created : CreateDataloadersResult :=
  build_result (FilteredDataset.init demo_imb class_names)
    [0, 1, 2, 3, 4, 5, 6, 7, 8, 9, 10, 11, 12, 13, 14, 15] [16, 17]
    [18, 19, 20] id id id 16 4

set_option maxRecDepth 4000 in
/-- The full pipeline run on the imbalanced corpus, evaluated
concretely. -/
theorem demo_imb_create :
    create_dataloaders idRandomState true demo_imb id id id 16 4 =
      .ok demo_imb_created := by
  unfold create_dataloaders
  rw [if_neg (by decide)]
  rw [demo_imb_split1]
  rfl

/-- C4 counterexample to the claimed `1/n_c` tolerance: on the imbalanced
corpus the platelet class (label 7, 19 members) receives 3 of the test
positions, and `|3/19 - 1/10| = 11/190` exceeds `1/19 = 10/190`. -/
theorem C4_counterexample_test_fraction :
    create_dataloaders idRandomState true demo_imb id id id 16 4 =
      .ok demo_imb_created ∧
    (FilteredDataset.init demo_imb class_names).targets.count 7 = 19 ∧
    (demo_imb_created.test_dataset.subset.indices.map (fun i =>
      (FilteredDataset.init demo_imb class_names).targets.getD
        i 0)).count 7 = 3 ∧
    ¬(|((demo_imb_created.test_dataset.subset.indices.map (fun i =>
          (FilteredDataset.init demo_imb class_names).targets.getD
            i 0)).count 7 : ℚ) /
        ((FilteredDataset.init demo_imb class_names).targets.count 7 : ℚ)
        - 1/10| ≤
      1 / ((FilteredDataset.init demo_imb class_names).targets.count 7 : ℚ)) := by
  refine ⟨demo_imb_create, by decide, by decide, ?_⟩
  rw [show (demo_imb_created.test_dataset.subset.indices.map (fun i =>
        (FilteredDataset.init demo_imb class_names).targets.getD
          i 0)).count 7 = 3 from by decide,
      show (FilteredDataset.init demo_imb class_names).targets.count 7 = 19
        from by decide]
  intro hcon
  rw [abs_le] at hcon
  have h2 := hcon.2
  norm_num at h2

end PBC
